import Mathlib

/-!
Verification of the data-manipulation utility library (`lib/data.js`).

The library operates on JavaScript values: scalars (booleans, numbers,
strings, `undefined`), `null`, and containers (arrays and plain objects)
with reference semantics.  We embed this with an explicit heap: a value is
either a scalar, `null`, or a reference (address) into a heap that maps
addresses to containers.  Reference identity, internal sharing and cycles
are therefore all expressible, which the `duplicate` claims require.

JavaScript behaviour modelled explicitly:
  * reading a property of `null`/`undefined` throws (`Except.error`),
  * writing a property of a non-object throws in strict mode (the source
    file starts with `'use strict'`),
  * reading a missing property yields `undefined`,
  * `typeof null === 'object'` (see `isObjectType`).

The spec's Value domain (§3) is JSON-like data: sequences and plain
mappings from text keys.  Exotica outside that domain (objects with
non-`Object` constructors, string character indexing, the array `length`
property as a path segment) are outside the model; containers are arrays
and plain objects, exactly the domain the spec's claims quantify over.
-/

set_option maxHeartbeats 1000000

namespace Data

/-- A JavaScript value: a scalar, `null`, or a reference to a heap container. -/
inductive JSVal where
  | undef : JSVal
  | null : JSVal
  | bool : Bool → JSVal
  | num : Int → JSVal
  | str : String → JSVal
  | ref : Nat → JSVal
deriving DecidableEq, Repr

/-- A heap container: an array of values, or a plain object given by its
own enumerable fields in insertion order. -/
inductive Container where
  | arr : List JSVal → Container
  | obj : List (String × JSVal) → Container
deriving DecidableEq, Repr

/-- First-match association-list lookup (the behaviour of reading a key). -/
def assocLookup {α β : Type} [DecidableEq α] : List (α × β) → α → Option β
  | [], _ => none
  | (k, v) :: t, a => if k = a then some v else assocLookup t a

/-- Replace the binding of a key, or append a fresh binding at the end
(JavaScript assignment to an object property keeps insertion order for
existing keys and appends new keys). -/
def setAssoc {α β : Type} [DecidableEq α] : List (α × β) → α → β → List (α × β)
  | [], a, b => [(a, b)]
  | (k, v) :: t, a, b => if k = a then (a, b) :: t else (k, v) :: setAssoc t a b

/-- Remove the binding of a key (JavaScript `delete`). -/
def eraseAssoc {α β : Type} [DecidableEq α] (l : List (α × β)) (a : α) : List (α × β) :=
  l.filter (fun p => decide (p.1 ≠ a))

/-- Write index `i` of an array, extending with `undefined` holes when the
index is past the end (JavaScript array index assignment). -/
def listSet (es : List JSVal) (i : Nat) (v : JSVal) : List JSVal :=
  if i < es.length then es.set i v
  else es ++ List.replicate (i - es.length) JSVal.undef ++ [v]

/-- The heap: allocation counter plus an association list from addresses to
containers. -/
structure Heap where
  next : Nat
  mem : List (Nat × Container)
deriving Repr

/-- Look an address up in the heap. -/
def Heap.lookup (h : Heap) (a : Nat) : Option Container :=
  assocLookup h.mem a

/-- Overwrite the container at an (existing) address. -/
def Heap.update (h : Heap) (a : Nat) (c : Container) : Heap :=
  ⟨h.next, setAssoc h.mem a c⟩

/-- Allocate a fresh container, returning the new heap and its address. -/
def Heap.alloc (h : Heap) (c : Container) : Heap × Nat :=
  (⟨h.next + 1, (h.next, c) :: h.mem⟩, h.next)

/-- Keys of a plain object are duplicate-free (JavaScript objects cannot
have two own fields with the same key). -/
def ctrOK : Container → Prop
  | .arr _ => True
  | .obj fs => (fs.map Prod.fst).Nodup

instance : ∀ c, Decidable (ctrOK c) := fun c => by
  cases c with
  | arr es => exact isTrue trivial
  | obj fs => exact inferInstanceAs (Decidable ((fs.map Prod.fst).Nodup))

/-- Heap well-formedness: all addresses are below the allocation counter,
addresses are distinct, and containers are well-formed. -/
def Heap.WF (h : Heap) : Prop :=
  (∀ p ∈ h.mem, p.1 < h.next) ∧ (h.mem.map Prod.fst).Nodup ∧ ∀ p ∈ h.mem, ctrOK p.2

instance : ∀ h, Decidable (Heap.WF h) := fun h =>
  inferInstanceAs (Decidable (_ ∧ _ ∧ _))

/-- A value is a live reference or a non-reference. -/
def refOK (h : Heap) : JSVal → Bool
  | .ref a => (h.lookup a).isSome
  | _ => true

/-- The values stored in a container's fields. -/
def ctrVals : Container → List JSVal
  | .arr es => es
  | .obj fs => fs.map Prod.snd

/-- A closed heap: every reference stored in a container points to an
allocated container. -/
def Heap.Closed (h : Heap) : Prop :=
  ∀ p ∈ h.mem, ∀ v ∈ ctrVals p.2, refOK h v = true

instance : ∀ h, Decidable (Heap.Closed h) := fun h =>
  inferInstanceAs (Decidable (∀ p ∈ h.mem, ∀ v ∈ ctrVals p.2, refOK h v = true))

/-! ### Property access primitives -/

/-- `typeof v === 'object'`.  True for references *and* for `null` — the
JavaScript `typeof null === 'object'` quirk, load-bearing for `setByPath`. -/
def isObjectType : JSVal → Bool
  | .ref _ => true
  | .null => true
  | _ => false

/-- Array indices are canonical decimal numerals. -/
def parseIndex (s : String) : Option Nat :=
  s.toNat?

/-- Read a field of a container by string key; missing fields read as
`undefined`. -/
def getField : Container → String → JSVal
  | .arr es, k =>
    match parseIndex k with
    | some i => es.getD i JSVal.undef
    | none => JSVal.undef
  | .obj fs, k => (assocLookup fs k).getD JSVal.undef

/-- Write a field of a container by string key. -/
def setField : Container → String → JSVal → Container
  | .arr es, k, v =>
    match parseIndex k with
    | some i => .arr (listSet es i v)
    | none => .arr es
  | .obj fs, k, v => .obj (setAssoc fs k v)

/-- Remove a field of a container by string key (array holes read back as
`undefined` in this model). -/
def delField : Container → String → Container
  | .arr es, k =>
    match parseIndex k with
    | some i => .arr (if i < es.length then es.set i JSVal.undef else es)
    | none => .arr es
  | .obj fs, k => .obj (eraseAssoc fs k)

/-- `obj[prop]`: reading a property.  Throws on `null`/`undefined`, yields
`undefined` on other scalars (primitive boxing), reads the container for a
reference. -/
def getProp (h : Heap) (v : JSVal) (k : String) : Except Unit JSVal :=
  match v with
  | .undef => .error ()
  | .null => .error ()
  | .ref a =>
    match h.lookup a with
    | some c => .ok (getField c k)
    | none => .error ()
  | _ => .ok JSVal.undef

/-- `obj[prop] = value`: writing a property.  In strict mode assignment to
a property of `null`, `undefined` or any other primitive throws. -/
def setProp (h : Heap) (v : JSVal) (k : String) (w : JSVal) : Except Unit Heap :=
  match v with
  | .ref a =>
    match h.lookup a with
    | some c => .ok (h.update a (setField c k w))
    | none => .error ()
  | _ => .error ()

/-- `obj.hasOwnProperty(prop)`.  Throws on `null`/`undefined`, false on
other primitives. -/
def hasOwn (h : Heap) (v : JSVal) (k : String) : Except Unit Bool :=
  match v with
  | .undef => .error ()
  | .null => .error ()
  | .ref a =>
    match h.lookup a with
    | some (.arr es) =>
      .ok (match parseIndex k with
           | some i => decide (i < es.length)
           | none => false)
    | some (.obj fs) => .ok (assocLookup fs k).isSome
    | none => .error ()
  | _ => .ok false

/-- `delete obj[prop]` on a reference; no-op otherwise (only reached after
`hasOwnProperty` succeeded). -/
def doDelete (h : Heap) (v : JSVal) (k : String) : Heap :=
  match v with
  | .ref a =>
    match h.lookup a with
    | some c => h.update a (delField c k)
    | none => h
  | _ => h

/-! ### Path accessors (`getByPath`, `setByPath`, `deleteByPath`) -/

/-- Split a character list at every `'.'` (the segments are never empty as
a list of segments, matching `String.prototype.split`). -/
def splitChars : List Char → List (List Char)
  | [] => [[]]
  | c :: cs =>
    match splitChars cs with
    | [] => [[]]
    | seg :: segs => if c = '.' then [] :: seg :: segs else (c :: seg) :: segs

/-- `dataPath.split('.')`, implemented structurally over the characters. -/
def splitPath (s : String) : List String :=
  (splitChars s.data).map String.mk

/-- The loop of `getByPath`: walk the remaining segments from `obj`;
short-circuit as soon as a step yields `undefined` or `null`. -/
def getWalk (h : Heap) : JSVal → List String → Except Unit JSVal
  | obj, [] => .ok obj
  | obj, p :: ps => do
    let next ← getProp h obj p
    if next = JSVal.undef ∨ next = JSVal.null then .ok next
    else getWalk h next ps

/-- `getByPath(data, dataPath)` from `lib/data.js`. -/
def getByPath (h : Heap) (data : JSVal) (dataPath : String) : Except Unit JSVal :=
  getWalk h data (splitPath dataPath)

/-- The loop of `setByPath`: the current segment is `p`, the remaining
segments are `rest`.  Each iteration first checks `typeof obj !== 'object'`;
at the last segment it assigns and returns `true`; otherwise it reads the
next level, auto-vivifying a fresh empty object when it is missing. -/
def setWalk (h : Heap) (obj : JSVal) (value : JSVal) (p : String)
    (rest : List String) : Except Unit (Bool × Heap) :=
  if isObjectType obj = false then .ok (false, h)
  else
    match rest with
    | [] => do
      let h' ← setProp h obj p value
      .ok (true, h')
    | p' :: ps => do
      let next ← getProp h obj p
      if next = JSVal.undef ∨ next = JSVal.null then
        let al := h.alloc (.obj [])
        let h2 ← setProp al.1 obj p (.ref al.2)
        setWalk h2 (.ref al.2) value p' ps
      else
        setWalk h next value p' ps

/-- `setByPath(data, dataPath, value)` from `lib/data.js`.  (`split` never
returns an empty list, so the `[]` branch is unreachable.) -/
def setByPath (h : Heap) (data : JSVal) (dataPath : String) (value : JSVal) :
    Except Unit (Bool × Heap) :=
  match splitPath dataPath with
  | [] => .ok (false, h)
  | p :: ps => setWalk h data value p ps

/-- Spec-side precondition for the `setByPath` success theorem: starting
at object address `a` with current segment `p` and remaining segments, every
*existing* level along the path is a plain object not previously visited
(`vis` accumulates the visited addresses, ruling out aliased paths whose
final assignment would overwrite an earlier link), while a missing or
`null` level may appear anywhere — from there on the walk auto-vivifies
fresh empty objects and always succeeds. -/
def setPathOK (h : Heap) (vis : List Nat) (a : Nat) (p : String) :
    List String → Bool
  | [] =>
    match h.lookup a with
    | some (.obj _) => true
    | _ => false
  | p' :: ps =>
    match h.lookup a with
    | some (.obj fs) =>
      match assocLookup fs p with
      | none => true
      | some JSVal.undef => true
      | some JSVal.null => true
      | some (JSVal.ref b) =>
        if b ∈ vis then false
        else
          match h.lookup b with
          | some (.obj _) => setPathOK h (b :: vis) b p' ps
          | _ => false
      | some _ => false
    | _ => false

/-- The loop of `deleteByPath`: at every iteration `next = obj[prop]` is
read first; at the last segment the key is removed when owned; at earlier
segments a missing next level means failure. -/
def delWalk (h : Heap) (obj : JSVal) (p : String) (rest : List String) :
    Except Unit (Bool × Heap) := do
  let next ← getProp h obj p
  match rest with
  | [] => do
    let owned ← hasOwn h obj p
    if owned then .ok (true, doDelete h obj p)
    else .ok (false, h)
  | p' :: ps =>
    if next = JSVal.undef ∨ next = JSVal.null then .ok (false, h)
    else delWalk h next p' ps

/-- `deleteByPath(data, dataPath)` from `lib/data.js`. -/
def deleteByPath (h : Heap) (data : JSVal) (dataPath : String) :
    Except Unit (Bool × Heap) :=
  match splitPath dataPath with
  | [] => .ok (false, h)
  | p :: ps => delWalk h data p ps

/-! ### `clone` and `duplicate`

`cloneFields`/`duplicateFields` in the source iterate a list of field names
(`range(0, size - 1)` for arrays, `Object.keys` for objects).  We mirror
that with a `Field` type covering both.  The recursions are not
structurally decreasing on the heap graph (it may contain cycles), so both
copiers take explicit fuel; `clone` runs with fuel `h.mem.length + 1`,
which we prove sufficient for acyclic data — on cyclic data `clone`
exhausts any fuel, modelling the source's unguarded non-termination —
and `duplicate` with the same bound, which its visited map makes
sufficient for *all* closed heaps. -/

/-- A field name: an array index or an object key. -/
inductive Field where
  | idx : Nat → Field
  | key : String → Field
deriving DecidableEq, Repr

/-- The field-name list of a container: `range(0, size - 1)` for an array,
`Object.keys(obj)` for an object. -/
def fieldsOf : Container → List Field
  | .arr es => (List.range es.length).map Field.idx
  | .obj fs => fs.map (fun p => Field.key p.1)

/-- Read a field of a container by field name (missing fields read as
`undefined`). -/
def readC : Container → Field → JSVal
  | .arr es, .idx i => es.getD i JSVal.undef
  | .arr _, .key _ => JSVal.undef
  | .obj fs, .key k => (assocLookup fs k).getD JSVal.undef
  | .obj _, .idx _ => JSVal.undef

/-- `srcObj[fieldName]` for a field name. -/
def readF (h : Heap) (a : Nat) (f : Field) : JSVal :=
  match h.lookup a with
  | none => JSVal.undef
  | some c => readC c f

/-- `dstObj[fieldName] = v` for a field name. -/
def writeC : Container → Field → JSVal → Container
  | .arr es, .idx i, v => .arr (listSet es i v)
  | .obj fs, .key k, v => .obj (setAssoc fs k v)
  | c, _, _ => c

/-- Write a field of the container at address `a` (no-op on a dangling
address, which closed heaps exclude). -/
def writeF (h : Heap) (a : Nat) (f : Field) (v : JSVal) : Heap :=
  match h.lookup a with
  | none => h
  | some c => h.update a (writeC c f v)

/-- The fresh, still-unfilled copy of a container: `new Array(size)` is a
sequence of `size` holes (reading as `undefined`), `{}` is empty. -/
def blankCopy : Container → Container
  | .arr es => .arr (List.replicate es.length JSVal.undef)
  | .obj _ => .obj []

/-- The body of one `cloneFields` iteration, parametrised by the recursive
call (`applyArrObj(val, cloneArray, cloneObject)`): scalars and `null` are
copied by value, containers are cloned recursively, and the result is
written into the destination field. -/
def cloneStepG (rec : Heap → Nat → Option (JSVal × Heap)) (src dst : Nat)
    (hh : Heap) (f : Field) : Option Heap :=
  let val := readF hh src f
  match val with
  | .ref b =>
    match rec hh b with
    | none => none
    | some vh => some (writeF vh.2 dst f vh.1)
  | _ => some (writeF hh dst f val)

/-- `cloneArray`/`cloneObject`: allocate the blank copy, then clone each
field of the source into it (`cloneFields`).  Returns `none` when fuel
runs out (the source recursion would not have terminated within that
depth) or on a dangling address. -/
def cloneCtr : Nat → Heap → Nat → Option (JSVal × Heap)
  | 0, _, _ => none
  | fuel + 1, h, a =>
    match h.lookup a with
    | none => none
    | some c =>
      let al := h.alloc (blankCopy c)
      match (fieldsOf c).foldlM (cloneStepG (fun hh b => cloneCtr fuel hh b) a al.2) al.1 with
      | none => none
      | some h' => some (.ref al.2, h')

/-- `cloneFields(srcObj, dstObj, fieldNames)`: the field loop of the
cloner, as a named function for the correctness lemmas. -/
def cloneFlds (fuel : Nat) (h : Heap) (src dst : Nat) (fs : List Field) :
    Option Heap :=
  fs.foldlM (cloneStepG (fun hh b => cloneCtr fuel hh b) src dst) h

/-- `clone(obj)` from `lib/data.js`: non-objects and `null` are returned
unchanged; containers are cloned recursively with no cycle tracking.
Fuel `h.mem.length + 1` bounds the recursion depth of any terminating
run (an acyclic reference chain cannot repeat an address); `none` models
the non-termination on cyclic input. -/
def clone (h : Heap) (v : JSVal) : Option (JSVal × Heap) :=
  match v with
  | .ref a => cloneCtr (h.mem.length + 1) h a
  | _ => some (v, h)

/-- The identity map of `duplicate`: original address → copy address. -/
abbrev Refs := List (Nat × Nat)

/-- The body of one `duplicateFields` iteration, parametrised by the
recursive call: a field value found in `references` is assigned the
already-built copy; otherwise scalars and `null` are assigned by value
and containers are recursed into with the same map. -/
def dupStepG (rec : Heap → Refs → Nat → Option (JSVal × Heap × Refs))
    (src dst : Nat) (st : Heap × Refs) (f : Field) : Option (Heap × Refs) :=
  let val := readF st.1 src f
  match val with
  | .ref b =>
    match assocLookup st.2 b with
    | some b' => some (writeF st.1 dst f (.ref b'), st.2)
    | none =>
      match rec st.1 st.2 b with
      | none => none
      | some vhr => some (writeF vhr.2.1 dst f vhr.1, vhr.2.2)
  | _ => some (writeF st.1 dst f val, st.2)

/-- `duplicateArray`/`duplicateObject`: allocate the blank copy, register
it in `references` under the original's address *before* any field is
recursed into, then duplicate the fields (`duplicateFields`).  (For the
spec's Value domain every mapping is a plain object, so `duplicateObject`
takes its `object = {}` branch.) -/
def dupCtr : Nat → Heap → Refs → Nat → Option (JSVal × Heap × Refs)
  | 0, _, _, _ => none
  | fuel + 1, h, refs, a =>
    match h.lookup a with
    | none => none
    | some c =>
      let al := h.alloc (blankCopy c)
      match (fieldsOf c).foldlM (dupStepG (fun hh rr b => dupCtr fuel hh rr b) a al.2)
          (al.1, (a, al.2) :: refs) with
      | none => none
      | some hr => some (.ref al.2, hr.1, hr.2)

/-- `duplicateFields(references, srcObj, dstObj, fieldNames)`: the field
loop of the duplicator, as a named function for the correctness lemmas. -/
def dupFlds (fuel : Nat) (h : Heap) (refs : Refs) (src dst : Nat)
    (fs : List Field) : Option (Heap × Refs) :=
  fs.foldlM (dupStepG (fun hh rr b => dupCtr fuel hh rr b) src dst) (h, refs)

/-- `duplicate(obj)` from `lib/data.js`: non-objects and `null` are
returned unchanged; otherwise a fresh `references` map is created for
this call, the container is duplicated through it, and the map is
discarded (only the copy is returned).  Fuel `h.mem.length + 1` is
sufficient for every closed well-formed heap (each nested `dupCtr` call
registers a previously unregistered original address, so the nesting
depth never exceeds the number of allocated containers). -/
def duplicate (h : Heap) (v : JSVal) : Option (JSVal × Heap) :=
  match v with
  | .ref a =>
    match dupCtr (h.mem.length + 1) h [] a with
    | none => none
    | some vhr => some (vhr.1, vhr.2.1)
  | _ => some (v, h)

/-! ### Specification-side relations for the copy theorems

Deep equality between two heap structures that may share, alias or cycle
is bisimilarity: a pairing `R` of original and copy addresses under which
related containers have the same shape and pointwise-related fields.
`duplicate` is proved to produce such an `R` (its `references` map), which
at once gives cycle-aware deep equality, freshness of every copy
container, and preservation of reference sharing. -/

/-- Field-wise correspondence through an address pairing `R`: scalars and
`null` are equal on both sides, a reference corresponds to a reference
related by `R`. -/
def FieldRel (R : List (Nat × Nat)) (v v' : JSVal) : Prop :=
  match v with
  | .ref b => ∃ q ∈ R, q.1 = b ∧ v' = JSVal.ref q.2
  | w => v' = w

/-- Same container shape: sequences of equal length, or mappings with the
same key list. -/
def shapeEq : Container → Container → Prop
  | .arr es, .arr es' => es.length = es'.length
  | .obj fs, .obj fs' => fs.map Prod.fst = fs'.map Prod.fst
  | _, _ => False

/-- One pair of a structural simulation: both addresses are allocated,
the containers have the same shape, and every field of the original is
`FieldRel`-related to the corresponding field of the copy. -/
def SimPairOK (hOld hNew : Heap) (R : List (Nat × Nat)) (b b' : Nat) : Prop :=
  match hOld.lookup b, hNew.lookup b' with
  | some c, some c' =>
    shapeEq c c' ∧ ∀ f ∈ fieldsOf c, FieldRel R (readC c f) (readC c' f)
  | _, _ => False

/-- A structural (cycle-aware) simulation between the original heap and
the copy heap: every pair of `R` is a good pair. -/
def Sim (hOld hNew : Heap) (R : List (Nat × Nat)) : Prop :=
  ∀ q ∈ R, SimPairOK hOld hNew R q.1 q.2

/-- Heap extension: the allocation counter only grows and the originally
allocated region is untouched. -/
def HExt (h0 h : Heap) : Prop :=
  h0.next ≤ h.next ∧ ∀ b, b < h0.next → h.lookup b = h0.lookup b

/-- A value respects a rank function when a reference points strictly
below the given rank. -/
def rankOK (rank : Nat → Nat) (r : Nat) : JSVal → Bool
  | .ref b => decide (rank b < rank r)
  | _ => true

/-- Acyclicity witnessed by a rank function: every reference stored in a
container points to a strictly lower-ranked address. -/
def AcyclicRank (h : Heap) (rank : Nat → Nat) : Prop :=
  ∀ p ∈ h.mem, ∀ v ∈ ctrVals p.2, rankOK rank p.1 v = true

instance : ∀ h rank, Decidable (AcyclicRank h rank) := fun h rank =>
  inferInstanceAs (Decidable (∀ p ∈ h.mem, ∀ v ∈ ctrVals p.2, rankOK rank p.1 v = true))

/-- Bounds on the identity-map entries during a `duplicate` traversal:
keys are originally allocated addresses, values are copies allocated
after the original region and live in the current heap. -/
def RefsOK (h0 h : Heap) (refs : Refs) : Prop :=
  ∀ q ∈ refs, q.1 < h0.next ∧ (h0.lookup q.1).isSome ∧
    h0.next ≤ q.2 ∧ q.2 < h.next ∧ (h.lookup q.2).isSome

/-- The keys of a field list written into a fresh object, in order. -/
def keyName : Field → Option String
  | .key k => some k
  | .idx _ => none

/-- The fields about to be written fit the destination container: indices
within bounds for an array destination; fresh, pairwise-distinct keys for
an object destination. -/
def DstFits (h : Heap) (dst : Nat) (fs : List Field) : Prop :=
  fs.Nodup ∧
  match h.lookup dst with
  | some (.arr ds) => ∀ f ∈ fs, ∃ i, f = Field.idx i ∧ i < ds.length
  | some (.obj gs) => (∀ f ∈ fs, ∃ k, f = Field.key k) ∧
      (gs.map Prod.fst ++ fs.filterMap keyName).Nodup
  | none => False

/-- How a run of field writes changes the destination container's shape:
array length preserved, object keys extended by exactly the written keys. -/
def DstShape (h h' : Heap) (dst : Nat) (fs : List Field) : Prop :=
  match h.lookup dst, h'.lookup dst with
  | some (.arr ds), some (.arr ds') => ds'.length = ds.length
  | some (.obj gs), some (.obj gs') =>
      gs'.map Prod.fst = gs.map Prod.fst ++ fs.filterMap keyName
  | _, _ => False

/-- Induction statement for `cloneCtr` at a given fuel: on a well-formed,
closed, acyclic original heap, cloning an original container from any
extension heap succeeds (given fuel above the container's rank) and
produces a simulation `R` pairing original containers with fresh copies. -/
def CloneCtrStmt (fuel : Nat) : Prop :=
  ∀ (h0 : Heap) (rank : Nat → Nat), h0.WF → h0.Closed → AcyclicRank h0 rank →
  ∀ (h : Heap) (a : Nat), h.WF → HExt h0 h →
    a < h0.next → (h0.lookup a).isSome → rank a < fuel →
    ∃ (a' : Nat) (h' : Heap) (R : List (Nat × Nat)),
      cloneCtr fuel h a = some (.ref a', h') ∧
      a' = h.next ∧ h.next < h'.next ∧ h'.WF ∧ HExt h0 h' ∧
      (∀ b, b < h.next → h'.lookup b = h.lookup b) ∧
      (∀ q ∈ R, q.1 < h0.next ∧ (h0.lookup q.1).isSome ∧
        h.next ≤ q.2 ∧ q.2 < h'.next ∧ (h'.lookup q.2).isSome) ∧
      (a, a') ∈ R ∧ Sim h0 h' R

/-- Induction statement for `cloneFlds` at a given fuel: cloning the
listed fields of original container `c` (at `src`) into a fresh
destination `dst` succeeds, writes `FieldRel`-related values into exactly
those fields, and only creates fresh containers. -/
def CloneFldsStmt (fuel : Nat) : Prop :=
  ∀ (h0 : Heap) (rank : Nat → Nat), h0.WF → h0.Closed → AcyclicRank h0 rank →
  ∀ (fs : List Field) (h : Heap) (src dst : Nat) (c : Container),
    h.WF → HExt h0 h →
    src < h0.next → h0.lookup src = some c → rank src ≤ fuel →
    h0.next ≤ dst → dst < h.next →
    DstFits h dst fs →
    ∃ (h' : Heap) (R : List (Nat × Nat)),
      cloneFlds fuel h src dst fs = some h' ∧
      h.next ≤ h'.next ∧ h'.WF ∧ HExt h0 h' ∧
      (∀ b, b < h.next → b ≠ dst → h'.lookup b = h.lookup b) ∧
      (∀ f ∈ fs, FieldRel R (readC c f) (readF h' dst f)) ∧
      (∀ f, f ∉ fs → readF h' dst f = readF h dst f) ∧
      DstShape h h' dst fs ∧
      (∀ q ∈ R, q.1 < h0.next ∧ (h0.lookup q.1).isSome ∧
        h.next ≤ q.2 ∧ q.2 < h'.next ∧ (h'.lookup q.2).isSome) ∧
      Sim h0 h' R

/-- A rank function with range bounded by the number of allocated
containers, obtained from an arbitrary acyclicity witness by counting the
allocated addresses of strictly smaller rank. -/
def boundRank (h : Heap) (rank : Nat → Nat) (a : Nat) : Nat :=
  (h.mem.map Prod.fst).countP (fun b => decide (rank b < rank a))

/-- Induction statement for `dupCtr` at a given fuel: duplicating an
unregistered original container from any extension heap succeeds (given
fuel above the number of still-unregistered containers), registers the
container at the fresh address `h.next` *before* every descendant entry,
keeps the identity map duplicate-free in both components, completes every
newly created pair into the simulation, and preserves completed pairs. -/
def DupCtrStmt (fuel : Nat) : Prop :=
  ∀ (h0 : Heap), h0.WF → h0.Closed →
  ∀ (h : Heap) (refs : Refs) (a : Nat), h.WF → HExt h0 h →
    RefsOK h0 h refs → (refs.map Prod.fst).Nodup → (refs.map Prod.snd).Nodup →
    a < h0.next → (h0.lookup a).isSome → a ∉ refs.map Prod.fst →
    h0.mem.length + 1 ≤ fuel + refs.length →
    ∃ (h' : Heap) (new : Refs),
      dupCtr fuel h refs a = some (.ref h.next, h', new ++ (a, h.next) :: refs) ∧
      h.next < h'.next ∧ h'.WF ∧ HExt h0 h' ∧
      (∀ b, b < h.next → h'.lookup b = h.lookup b) ∧
      RefsOK h0 h' (new ++ (a, h.next) :: refs) ∧
      ((new ++ (a, h.next) :: refs).map Prod.fst).Nodup ∧
      ((new ++ (a, h.next) :: refs).map Prod.snd).Nodup ∧
      (∀ q ∈ new, h.next < q.2) ∧
      (∀ q, (q ∈ new ∨ q = (a, h.next)) →
        SimPairOK h0 h' (new ++ (a, h.next) :: refs) q.1 q.2) ∧
      (∀ q ∈ refs, SimPairOK h0 h refs q.1 q.2 →
        SimPairOK h0 h' (new ++ (a, h.next) :: refs) q.1 q.2)

/-- Induction statement for `dupFlds` at a given fuel. -/
def DupFldsStmt (fuel : Nat) : Prop :=
  ∀ (h0 : Heap), h0.WF → h0.Closed →
  ∀ (fs : List Field) (h : Heap) (refs : Refs) (src dst : Nat) (c : Container),
    h.WF → HExt h0 h →
    RefsOK h0 h refs → (refs.map Prod.fst).Nodup → (refs.map Prod.snd).Nodup →
    src < h0.next → h0.lookup src = some c →
    (src, dst) ∈ refs →
    DstFits h dst fs →
    h0.mem.length + 1 ≤ fuel + refs.length →
    ∃ (h' : Heap) (new : Refs),
      dupFlds fuel h refs src dst fs = some (h', new ++ refs) ∧
      h.next ≤ h'.next ∧ h'.WF ∧ HExt h0 h' ∧
      (∀ b, b < h.next → b ≠ dst → h'.lookup b = h.lookup b) ∧
      RefsOK h0 h' (new ++ refs) ∧
      ((new ++ refs).map Prod.fst).Nodup ∧
      ((new ++ refs).map Prod.snd).Nodup ∧
      (∀ q ∈ new, h.next ≤ q.2) ∧
      (∀ f ∈ fs, FieldRel (new ++ refs) (readC c f) (readF h' dst f)) ∧
      (∀ f, f ∉ fs → readF h' dst f = readF h dst f) ∧
      DstShape h h' dst fs ∧
      (∀ q ∈ new, SimPairOK h0 h' (new ++ refs) q.1 q.2) ∧
      (∀ q ∈ refs, q.2 ≠ dst → SimPairOK h0 h refs q.1 q.2 →
        SimPairOK h0 h' (new ++ refs) q.1 q.2)

/-! ### `merge` -/

/-- `Set.prototype.add`: append if not already present (JavaScript `Set`
keeps insertion order and compares object elements by identity, which for
`JSVal.ref` is address equality). -/
def setAdd (acc : List JSVal) (x : JSVal) : List JSVal :=
  if x ∈ acc then acc else acc ++ [x]

/-- `merge(...args)` from `lib/data.js`: add every element of every input
array into one set, then list the set. -/
def merge (args : List (List JSVal)) : List JSVal :=
  args.foldl (fun acc arr => arr.foldl setAdd acc) []

/-! ## Association-list lemmas -/

section Assoc

variable {α β : Type} [DecidableEq α]

theorem assocLookup_mem {l : List (α × β)} {a : α} {b : β}
    (h : assocLookup l a = some b) : (a, b) ∈ l := by
  induction l with
  | nil => simp [assocLookup] at h
  | cons p t ih =>
    obtain ⟨k, v⟩ := p
    by_cases hk : k = a
    · subst hk
      simp [assocLookup] at h
      simp [h]
    · simp [assocLookup, hk] at h
      exact List.mem_cons_of_mem _ (ih h)

theorem assocLookup_isSome_of_mem {l : List (α × β)} {a : α} {b : β}
    (h : (a, b) ∈ l) : (assocLookup l a).isSome := by
  induction l with
  | nil => simp at h
  | cons p t ih =>
    obtain ⟨k, v⟩ := p
    by_cases hk : k = a
    · simp [assocLookup, hk]
    · rcases List.mem_cons.mp h with h1 | h1
      · cases h1; simp at hk
      · simpa [assocLookup, hk] using ih h1

theorem assocLookup_eq_of_mem_nodup {l : List (α × β)} {a : α} {b : β}
    (hn : (l.map Prod.fst).Nodup) (h : (a, b) ∈ l) : assocLookup l a = some b := by
  induction l with
  | nil => simp at h
  | cons p t ih =>
    obtain ⟨k, v⟩ := p
    simp only [List.map_cons, List.nodup_cons] at hn
    rcases List.mem_cons.mp h with h1 | h1
    · cases h1; simp [assocLookup]
    · have hk : k ≠ a := fun hka => hn.1 (List.mem_map.mpr ⟨(a, b), h1, hka.symm⟩)
      simpa [assocLookup, hk] using ih hn.2 h1

theorem assocLookup_eq_none_iff {l : List (α × β)} {a : α} :
    assocLookup l a = none ↔ a ∉ l.map Prod.fst := by
  induction l with
  | nil => simp [assocLookup]
  | cons p t ih =>
    obtain ⟨k, v⟩ := p
    by_cases hk : k = a
    · subst hk; simp [assocLookup]
    · simp [assocLookup, hk, ih, Ne.symm hk]

theorem assocLookup_setAssoc_self {l : List (α × β)} {a : α} {b : β} :
    assocLookup (setAssoc l a b) a = some b := by
  induction l with
  | nil => simp [setAssoc, assocLookup]
  | cons p t ih =>
    obtain ⟨k, v⟩ := p
    by_cases hk : k = a
    · simp [setAssoc, hk, assocLookup]
    · simp [setAssoc, hk, assocLookup, ih]

theorem assocLookup_setAssoc_other {l : List (α × β)} {a a' : α} {b : β}
    (h : a' ≠ a) : assocLookup (setAssoc l a b) a' = assocLookup l a' := by
  induction l with
  | nil => simp [setAssoc, assocLookup, Ne.symm h]
  | cons p t ih =>
    obtain ⟨k, v⟩ := p
    by_cases hk : k = a
    · subst hk
      simp [setAssoc, assocLookup, Ne.symm h]
    · by_cases hk' : k = a'
      · subst hk'
        simp [setAssoc, hk, assocLookup]
      · simp [setAssoc, hk, assocLookup, hk', ih]

theorem setAssoc_keys_of_isSome {l : List (α × β)} {a : α} {b : β}
    (h : (assocLookup l a).isSome) :
    (setAssoc l a b).map Prod.fst = l.map Prod.fst := by
  induction l with
  | nil => simp [assocLookup] at h
  | cons p t ih =>
    obtain ⟨k, v⟩ := p
    by_cases hk : k = a
    · subst hk; simp [setAssoc]
    · simp only [assocLookup, hk, if_false] at h
      simp [setAssoc, hk, ih h]

theorem setAssoc_keys_of_none {l : List (α × β)} {a : α} {b : β}
    (h : assocLookup l a = none) :
    (setAssoc l a b).map Prod.fst = l.map Prod.fst ++ [a] := by
  induction l with
  | nil => simp [setAssoc]
  | cons p t ih =>
    obtain ⟨k, v⟩ := p
    by_cases hk : k = a
    · subst hk; simp [assocLookup] at h
    · simp only [assocLookup, hk, if_false] at h
      simp [setAssoc, hk, ih h]

theorem mem_setAssoc {l : List (α × β)} {a : α} {b : β} {p : α × β}
    (h : p ∈ setAssoc l a b) : p = (a, b) ∨ p ∈ l := by
  induction l with
  | nil => simpa [setAssoc] using h
  | cons q t ih =>
    obtain ⟨k, v⟩ := q
    by_cases hk : k = a
    · subst hk
      simp only [setAssoc, if_pos rfl] at h
      rcases List.mem_cons.mp h with h1 | h1
      · exact Or.inl h1
      · exact Or.inr (List.mem_cons_of_mem _ h1)
    · simp only [setAssoc, if_neg hk] at h
      rcases List.mem_cons.mp h with h1 | h1
      · exact Or.inr (by simp [h1])
      · rcases ih h1 with h2 | h2
        · exact Or.inl h2
        · exact Or.inr (List.mem_cons_of_mem _ h2)

theorem setAssoc_nodup_keys {l : List (α × β)} {a : α} {b : β}
    (h : (l.map Prod.fst).Nodup) : ((setAssoc l a b).map Prod.fst).Nodup := by
  by_cases hs : (assocLookup l a).isSome
  · rwa [setAssoc_keys_of_isSome hs]
  · have hn : assocLookup l a = none := by
      cases hl : assocLookup l a with
      | none => rfl
      | some v => rw [hl] at hs; simp at hs
    rw [setAssoc_keys_of_none hn]
    have ha : a ∉ l.map Prod.fst := assocLookup_eq_none_iff.mp hn
    simp [List.nodup_append, h, ha]

theorem assocLookup_eraseAssoc_self {l : List (α × β)} {a : α} :
    assocLookup (eraseAssoc l a) a = none := by
  rw [assocLookup_eq_none_iff]
  intro hmem
  rcases List.mem_map.mp hmem with ⟨p, hp, hfst⟩
  rcases List.mem_filter.mp hp with ⟨_, hne⟩
  rw [hfst] at hne
  simp at hne

theorem assocLookup_eraseAssoc_other {l : List (α × β)} {a a' : α}
    (h : a' ≠ a) : assocLookup (eraseAssoc l a) a' = assocLookup l a' := by
  induction l with
  | nil => simp [eraseAssoc, assocLookup]
  | cons p t ih =>
    obtain ⟨k, v⟩ := p
    by_cases hk : k = a
    · subst hk
      simpa [eraseAssoc, assocLookup, Ne.symm h] using ih
    · by_cases hk' : k = a'
      · subst hk'
        simp [eraseAssoc, assocLookup, hk]
      · simpa [eraseAssoc, assocLookup, hk, hk'] using ih

theorem eraseAssoc_keys_sublist {l : List (α × β)} {a : α} :
    ((eraseAssoc l a).map Prod.fst).Sublist (l.map Prod.fst) :=
  List.Sublist.map Prod.fst (List.filter_sublist l)

end Assoc

/-! ## `listSet` lemmas -/

theorem listSet_length {es : List JSVal} {i : Nat} {v : JSVal}
    (h : i < es.length) : (listSet es i v).length = es.length := by
  simp [listSet, h]

theorem listSet_getD_self {es : List JSVal} {i : Nat} {v : JSVal} :
    (listSet es i v).getD i JSVal.undef = v := by
  by_cases h : i < es.length
  · simp [listSet, h, List.getElem?_set_self h]
  · have hle : es.length ≤ i := Nat.le_of_not_lt h
    simp only [listSet, if_neg h, List.getD_eq_getElem?_getD]
    rw [List.append_assoc, List.getElem?_append_right hle,
      List.getElem?_append_right (by simp)]
    simp

theorem listSet_getD_other {es : List JSVal} {i j : Nat} {v : JSVal}
    (h : j ≠ i) : (listSet es i v).getD j JSVal.undef = es.getD j JSVal.undef := by
  by_cases hi : i < es.length
  · simp [listSet, hi, List.getElem?_set_ne (Ne.symm h)]
  · have hle : es.length ≤ i := Nat.le_of_not_lt hi
    simp only [listSet, if_neg hi, List.getD_eq_getElem?_getD]
    by_cases hj : j < es.length
    · rw [List.append_assoc, List.getElem?_append_left hj]
    · have hjle : es.length ≤ j := Nat.le_of_not_lt hj
      rw [List.append_assoc, List.getElem?_append_right hjle,
        List.getElem?_eq_none hjle]
      by_cases hjr : j - es.length < i - es.length
      · rw [List.getElem?_append_left (by simpa using hjr)]
        simp [List.getElem?_replicate, hjr]
      · have hge : i - es.length ≤ j - es.length := Nat.le_of_not_lt hjr
        rw [List.getElem?_append_right (by simpa using hge),
          List.getElem?_eq_none (by simp only [List.length_replicate, List.length_cons, List.length_nil]; omega)]

/-! ## Except-monad reduction lemmas -/

@[simp] theorem okBind {ε α β : Type} (x : α) (f : α → Except ε β) :
    (Except.ok x : Except ε α) >>= f = f x := rfl

@[simp] theorem errBind {ε α β : Type} (e : ε) (f : α → Except ε β) :
    (Except.error e : Except ε α) >>= f = Except.error e := rfl

/-! ## Heap lemmas -/

theorem Heap.next_update (h : Heap) (a : Nat) (c : Container) :
    (h.update a c).next = h.next := rfl

theorem Heap.lookup_update_self {h : Heap} {a : Nat} {c : Container} :
    (h.update a c).lookup a = some c :=
  assocLookup_setAssoc_self

theorem Heap.lookup_update_other {h : Heap} {a b : Nat} {c : Container}
    (hne : b ≠ a) : (h.update a c).lookup b = h.lookup b :=
  assocLookup_setAssoc_other hne

theorem Heap.lookup_alloc_self {h : Heap} {c : Container} :
    (h.alloc c).1.lookup (h.alloc c).2 = some c := by
  simp [Heap.alloc, Heap.lookup, assocLookup]

theorem Heap.lookup_alloc_other {h : Heap} {c : Container} {b : Nat}
    (hne : b ≠ h.next) : (h.alloc c).1.lookup b = h.lookup b := by
  simp [Heap.alloc, Heap.lookup, assocLookup, Ne.symm hne]

theorem Heap.next_alloc (h : Heap) (c : Container) :
    (h.alloc c).1.next = h.next + 1 := rfl

theorem Heap.lookup_lt_next {h : Heap} {a : Nat} (hwf : h.WF)
    (hs : (h.lookup a).isSome) : a < h.next := by
  cases hl : h.lookup a with
  | none => rw [hl] at hs; simp at hs
  | some c => exact hwf.1 (a, c) (assocLookup_mem hl)

theorem Heap.lookup_ctrOK {h : Heap} {a : Nat} {c : Container} (hwf : h.WF)
    (hl : h.lookup a = some c) : ctrOK c :=
  hwf.2.2 (a, c) (assocLookup_mem hl)

theorem Heap.WF_update {h : Heap} {a : Nat} {c : Container} (hwf : h.WF)
    (hs : (h.lookup a).isSome) (hc : ctrOK c) : (h.update a c).WF := by
  refine ⟨?_, ?_, ?_⟩
  · intro p hp
    show p.1 < h.next
    rcases mem_setAssoc hp with h1 | h1
    · subst h1
      exact Heap.lookup_lt_next hwf hs
    · exact hwf.1 p h1
  · show ((setAssoc h.mem a c).map Prod.fst).Nodup
    rw [setAssoc_keys_of_isSome hs]
    exact hwf.2.1
  · intro p hp
    rcases mem_setAssoc hp with h1 | h1
    · subst h1; exact hc
    · exact hwf.2.2 p h1

theorem Heap.WF_alloc {h : Heap} {c : Container} (hwf : h.WF) (hc : ctrOK c) :
    (h.alloc c).1.WF := by
  refine ⟨?_, ?_, ?_⟩
  · intro p hp
    rcases List.mem_cons.mp hp with h1 | h1
    · subst h1; exact Nat.lt_succ_self _
    · exact Nat.lt_succ_of_lt (hwf.1 p h1)
  · show (h.next :: h.mem.map Prod.fst).Nodup
    refine List.nodup_cons.mpr ⟨?_, hwf.2.1⟩
    intro hmem
    rcases List.mem_map.mp hmem with ⟨p, hp, hfst⟩
    exact absurd (hfst ▸ hwf.1 p hp) (Nat.lt_irrefl _)
  · intro p hp
    rcases List.mem_cons.mp hp with h1 | h1
    · subst h1; exact hc
    · exact hwf.2.2 p h1

theorem Heap.update_mem_length {h : Heap} {a : Nat} {c : Container}
    (hs : (h.lookup a).isSome) : (h.update a c).mem.length = h.mem.length := by
  show (setAssoc h.mem a c).length = h.mem.length
  have := setAssoc_keys_of_isSome (l := h.mem) (b := c) hs
  calc (setAssoc h.mem a c).length = ((setAssoc h.mem a c).map Prod.fst).length := by simp
    _ = (h.mem.map Prod.fst).length := by rw [this]
    _ = h.mem.length := by simp

/-! ## `writeF`/`readF` lemmas -/

theorem writeF_next (h : Heap) (a : Nat) (f : Field) (v : JSVal) :
    (writeF h a f v).next = h.next := by
  unfold writeF
  cases h.lookup a <;> rfl

theorem lookup_writeF_other {h : Heap} {a b : Nat} {f : Field} {v : JSVal}
    (hne : b ≠ a) : (writeF h a f v).lookup b = h.lookup b := by
  unfold writeF
  cases h.lookup a with
  | none => rfl
  | some c => exact Heap.lookup_update_other hne

theorem lookup_writeF_self {h : Heap} {a : Nat} {c : Container} {f : Field} {v : JSVal}
    (hl : h.lookup a = some c) : (writeF h a f v).lookup a = some (writeC c f v) := by
  unfold writeF
  rw [hl]
  exact Heap.lookup_update_self

theorem lookup_writeF_none {h : Heap} {a : Nat} {f : Field} {v : JSVal}
    (hl : h.lookup a = none) : writeF h a f v = h := by
  unfold writeF
  rw [hl]

theorem ctrOK_writeC {c : Container} {f : Field} {v : JSVal} (hc : ctrOK c) :
    ctrOK (writeC c f v) := by
  cases c with
  | arr es => cases f <;> trivial
  | obj fs =>
    cases f with
    | idx i => exact hc
    | key k => exact setAssoc_nodup_keys hc

theorem Heap.WF_writeF {h : Heap} {a : Nat} {f : Field} {v : JSVal} (hwf : h.WF) :
    (writeF h a f v).WF := by
  unfold writeF
  cases hl : h.lookup a with
  | none => exact hwf
  | some c =>
    exact Heap.WF_update hwf (by simp [hl]) (ctrOK_writeC (Heap.lookup_ctrOK hwf hl))

theorem writeF_mem_length {h : Heap} {a : Nat} {f : Field} {v : JSVal} :
    (writeF h a f v).mem.length = h.mem.length := by
  unfold writeF
  cases hl : h.lookup a with
  | none => rfl
  | some c => exact Heap.update_mem_length (by simp [hl])

theorem readF_writeF_arr_self {h : Heap} {a : Nat} {es : List JSVal} {i : Nat} {v : JSVal}
    (hl : h.lookup a = some (.arr es)) :
    readF (writeF h a (.idx i) v) a (.idx i) = v := by
  rw [readF, lookup_writeF_self hl]
  show (listSet es i v).getD i JSVal.undef = v
  exact listSet_getD_self

theorem readF_writeF_obj_self {h : Heap} {a : Nat} {fs : List (String × JSVal)} {k : String} {v : JSVal}
    (hl : h.lookup a = some (.obj fs)) :
    readF (writeF h a (.key k) v) a (.key k) = v := by
  rw [readF, lookup_writeF_self hl]
  show (assocLookup (setAssoc fs k v) k).getD JSVal.undef = v
  rw [assocLookup_setAssoc_self]
  rfl

theorem readF_writeF_other_field {h : Heap} {a : Nat} {f f' : Field} {v : JSVal}
    (hne : f' ≠ f) : readF (writeF h a f v) a f' = readF h a f' := by
  unfold writeF
  cases hl : h.lookup a with
  | none => rfl
  | some c =>
    rw [readF, Heap.lookup_update_self, readF, hl]
    cases c with
    | arr es =>
      cases f with
      | idx i =>
        cases f' with
        | idx j =>
          have hij : j ≠ i := fun hji => hne (by rw [hji])
          show (listSet es i v).getD j JSVal.undef = es.getD j JSVal.undef
          exact listSet_getD_other hij
        | key k => rfl
      | key k => rfl
    | obj fs =>
      cases f with
      | key k =>
        cases f' with
        | key k' =>
          have hkk : k' ≠ k := fun hk => hne (by rw [hk])
          show (assocLookup (setAssoc fs k v) k').getD JSVal.undef
            = (assocLookup fs k').getD JSVal.undef
          rw [assocLookup_setAssoc_other hkk]
        | idx j => rfl
      | idx i => rfl

theorem readF_writeF_other_addr {h : Heap} {a b : Nat} {f f' : Field} {v : JSVal}
    (hne : b ≠ a) : readF (writeF h a f v) b f' = readF h b f' := by
  rw [readF, lookup_writeF_other hne, readF]

theorem readF_congr_lookup {h h' : Heap} {a : Nat} {f : Field}
    (he : h'.lookup a = h.lookup a) : readF h' a f = readF h a f := by
  rw [readF, he, readF]

theorem ctrOK_setField {c : Container} {k : String} {v : JSVal} (hc : ctrOK c) :
    ctrOK (setField c k v) := by
  cases c with
  | arr es => cases hpk : parseIndex k <;> simp [setField, hpk, ctrOK]
  | obj fs => exact setAssoc_nodup_keys hc

theorem ctrOK_delField {c : Container} {k : String} (hc : ctrOK c) :
    ctrOK (delField c k) := by
  cases c with
  | arr es => cases hpk : parseIndex k <;> simp [delField, hpk, ctrOK]
  | obj fs => exact (eraseAssoc_keys_sublist).nodup hc

/-! ## `merge` lemmas -/

theorem mem_setAdd {acc : List JSVal} {x y : JSVal} :
    x ∈ setAdd acc y ↔ x ∈ acc ∨ x = y := by
  unfold setAdd
  by_cases h : y ∈ acc
  · rw [if_pos h]
    constructor
    · exact Or.inl
    · rintro (h1 | rfl)
      · exact h1
      · exact h
  · rw [if_neg h]
    simp

theorem nodup_setAdd {acc : List JSVal} {y : JSVal} (h : acc.Nodup) :
    (setAdd acc y).Nodup := by
  unfold setAdd
  by_cases hy : y ∈ acc
  · rw [if_pos hy]; exact h
  · rw [if_neg hy]
    simp [List.nodup_append, h, hy]

theorem mem_foldl_setAdd {l acc : List JSVal} {x : JSVal} :
    x ∈ l.foldl setAdd acc ↔ x ∈ acc ∨ x ∈ l := by
  induction l generalizing acc with
  | nil => simp
  | cons y t ih =>
    simp only [List.foldl_cons, ih, mem_setAdd, List.mem_cons]
    tauto

theorem nodup_foldl_setAdd {l acc : List JSVal} (h : acc.Nodup) :
    (l.foldl setAdd acc).Nodup := by
  induction l generalizing acc with
  | nil => exact h
  | cons y t ih => exact ih (nodup_setAdd h)

theorem mem_merge_aux {args : List (List JSVal)} {acc : List JSVal} {x : JSVal} :
    x ∈ args.foldl (fun acc arr => arr.foldl setAdd acc) acc ↔
      x ∈ acc ∨ ∃ l ∈ args, x ∈ l := by
  induction args generalizing acc with
  | nil => simp
  | cons arr t ih =>
    simp only [List.foldl_cons, ih, mem_foldl_setAdd, List.mem_cons]
    constructor
    · rintro ((h1 | h1) | ⟨l, hl, hx⟩)
      · exact Or.inl h1
      · exact Or.inr ⟨arr, Or.inl rfl, h1⟩
      · exact Or.inr ⟨l, Or.inr hl, hx⟩
    · rintro (h1 | ⟨l, hl | hl, hx⟩)
      · exact Or.inl (Or.inl h1)
      · exact Or.inl (Or.inr (hl ▸ hx))
      · exact Or.inr ⟨l, hl, hx⟩

/-! ## `setWalk` lemmas -/

/-- Once `setByPath` auto-vivifies, the walk continues through freshly
created empty objects only, so it always ends in a successful assignment:
from an empty object the walk returns `true` whatever the remaining path,
`getByPath` on the resulting heap reads the assigned value back, the heap
stays well-formed and only the empty object and fresh addresses change. -/
theorem setWalk_empty_obj_spec {ps : List String} :
    ∀ {p : String} {h : Heap} {a : Nat} {v : JSVal}, h.WF →
      h.lookup a = some (.obj []) →
      ∃ h', setWalk h (.ref a) v p ps = .ok (true, h') ∧
        getWalk h' (.ref a) (p :: ps) = .ok v ∧
        h.next ≤ h'.next ∧ h'.WF ∧
        ∀ b, b < h.next → b ≠ a → h'.lookup b = h.lookup b := by
  induction ps with
  | nil =>
    intro p h a v hwf hl
    refine ⟨h.update a (setField (.obj []) p v), ?_, ?_, Nat.le_refl _, ?_, ?_⟩
    · simp [setWalk, isObjectType, setProp, hl]
    · rw [getWalk]
      simp only [getProp, Heap.lookup_update_self, okBind]
      have hgf : getField (setField (.obj []) p v) p = v := by
        simp [getField, setField, assocLookup_setAssoc_self]
      rw [hgf]
      by_cases hv : v = JSVal.undef ∨ v = JSVal.null
      · rw [if_pos hv]
      · rw [if_neg hv, getWalk]
    · exact Heap.WF_update hwf (by simp [hl]) (ctrOK_setField (by simp [ctrOK]))
    · intro b _ hbne
      exact Heap.lookup_update_other hbne
  | cons p' ps ih =>
    intro p h a v hwf hl
    have ha : a < h.next := Heap.lookup_lt_next hwf (by simp [hl])
    have hane : a ≠ h.next := Nat.ne_of_lt ha
    have h1wf : (h.alloc (.obj [])).1.WF := Heap.WF_alloc hwf (by simp [ctrOK])
    have hl1 : (h.alloc (.obj [])).1.lookup a = some (.obj []) := by
      rw [Heap.lookup_alloc_other hane]; exact hl
    have h2wf : ((h.alloc (.obj [])).1.update a
        (setField (.obj []) p (.ref h.next))).WF :=
      Heap.WF_update h1wf (by simp [hl1]) (ctrOK_setField (by simp [ctrOK]))
    have hl2 : ((h.alloc (.obj [])).1.update a
        (setField (.obj []) p (.ref h.next))).lookup h.next = some (.obj []) := by
      rw [Heap.lookup_update_other (Ne.symm hane)]
      exact Heap.lookup_alloc_self
    obtain ⟨h', hrun, hget, hnext, hwf', hframe⟩ := ih h2wf hl2
    refine ⟨h', ?_, ?_, ?_, hwf', ?_⟩
    · simp only [setWalk, isObjectType, getProp, hl, getField, assocLookup,
        Option.getD_none, if_neg (by simp : ¬(false = true))]
      simp only [setProp, hl1]
      simpa [Heap.alloc] using hrun
    · rw [getWalk]
      have hla : h'.lookup a = some (setField (.obj []) p (.ref h.next)) := by
        rw [hframe a (show a < h.next + 1 by omega) hane]
        exact Heap.lookup_update_self
      simp only [getProp, hla, okBind]
      have hgf : getField (setField (.obj []) p (.ref h.next)) p = .ref h.next := by
        simp [getField, setField, assocLookup_setAssoc_self]
      rw [hgf, if_neg (by simp)]
      exact hget
    · exact Nat.le_trans (Nat.le_succ _) hnext
    · intro b hb hbne
      rw [hframe b (show b < h.next + 1 by omega) (by omega),
        Heap.lookup_update_other hbne,
        Heap.lookup_alloc_other (by omega)]

/-- The success theorem for the `setByPath` walk: under `setPathOK` the
walk returns `true` and the value can be read back along the same path;
moreover the heap stays well-formed and visited containers other than the
current one are untouched (the frame used to compose the levels). -/
theorem setWalk_viv_spec {ps : List String} :
    ∀ {p : String} {h : Heap} {vis : List Nat} {a : Nat} {v : JSVal},
      h.WF → a ∈ vis → setPathOK h vis a p ps = true →
      ∃ h', setWalk h (.ref a) v p ps = .ok (true, h') ∧
        getWalk h' (.ref a) (p :: ps) = .ok v ∧
        h.next ≤ h'.next ∧ h'.WF ∧
        ∀ c ∈ vis, c ≠ a → c < h.next → h'.lookup c = h.lookup c := by
  induction ps with
  | nil =>
    intro p h vis a v hwf _ hok
    rw [setPathOK] at hok
    cases hla : h.lookup a with
    | none => rw [hla] at hok; simp at hok
    | some c =>
      cases c with
      | arr es => rw [hla] at hok; simp at hok
      | obj fs =>
        refine ⟨h.update a (setField (.obj fs) p v), ?_, ?_, Nat.le_refl _, ?_, ?_⟩
        · simp [setWalk, isObjectType, setProp, hla]
        · rw [getWalk]
          simp only [getProp, Heap.lookup_update_self, okBind]
          have hgf : getField (setField (.obj fs) p v) p = v := by
            simp [getField, setField, assocLookup_setAssoc_self]
          rw [hgf]
          by_cases hv : v = JSVal.undef ∨ v = JSVal.null
          · rw [if_pos hv]
          · rw [if_neg hv, getWalk]
        · exact Heap.WF_update hwf (by simp [hla])
            (ctrOK_setField (Heap.lookup_ctrOK hwf hla))
        · intro c _ hcne _
          exact Heap.lookup_update_other hcne
  | cons p' ps ih =>
    intro p h vis a v hwf hmem hok
    rw [setPathOK] at hok
    cases hla : h.lookup a with
    | none => rw [hla] at hok; simp at hok
    | some c =>
      cases c with
      | arr es => rw [hla] at hok; simp at hok
      | obj fs =>
        rw [hla] at hok
        simp only [] at hok
        have ha : a < h.next := Heap.lookup_lt_next hwf (by simp [hla])
        by_cases hnx : getField (.obj fs) p = JSVal.undef ∨ getField (.obj fs) p = JSVal.null
        · -- auto-vivification: the next level is missing or null
          have hane : a ≠ h.next := Nat.ne_of_lt ha
          have h1wf : (h.alloc (.obj [])).1.WF := Heap.WF_alloc hwf (by simp [ctrOK])
          have hl1 : (h.alloc (.obj [])).1.lookup a = some (.obj fs) := by
            rw [Heap.lookup_alloc_other hane]; exact hla
          have h2wf : ((h.alloc (.obj [])).1.update a
              (setField (.obj fs) p (.ref h.next))).WF :=
            Heap.WF_update h1wf (by simp [hl1])
              (ctrOK_setField (Heap.lookup_ctrOK hwf hla))
          have hl2 : ((h.alloc (.obj [])).1.update a
              (setField (.obj fs) p (.ref h.next))).lookup h.next
              = some (.obj []) := by
            rw [Heap.lookup_update_other (Ne.symm hane)]
            exact Heap.lookup_alloc_self
          obtain ⟨h', hrun, hget, hnext, hwf', hframe⟩ := setWalk_empty_obj_spec h2wf hl2
          refine ⟨h', ?_, ?_, ?_, hwf', ?_⟩
          · rw [setWalk, if_neg (by simp [isObjectType])]
            simp only [getProp, hla, okBind]
            rw [if_pos hnx]
            simp only [setProp, hl1, okBind]
            simpa [Heap.alloc] using hrun
          · rw [getWalk]
            have hla' : h'.lookup a = some (setField (.obj fs) p (.ref h.next)) := by
              rw [hframe a (show a < h.next + 1 by omega) hane]
              exact Heap.lookup_update_self
            simp only [getProp, hla', okBind]
            have hgf : getField (setField (.obj fs) p (.ref h.next)) p = .ref h.next := by
              simp [getField, setField, assocLookup_setAssoc_self]
            rw [hgf, if_neg (by simp)]
            exact hget
          · exact Nat.le_trans (Nat.le_succ _) hnext
          · intro b hb hbne hblt
            rw [hframe b (show b < h.next + 1 by omega) (by omega),
              Heap.lookup_update_other hbne,
              Heap.lookup_alloc_other (by omega)]
        · -- an existing next level: `setPathOK` forces it to be a fresh object
          cases hfp : assocLookup fs p with
          | none =>
            exfalso
            exact hnx (Or.inl (by simp [getField, hfp]))
          | some w =>
            have hgf : getField (.obj fs) p = w := by simp [getField, hfp]
            cases w with
            | undef => exact absurd (Or.inl hgf) hnx
            | null => exact absurd (Or.inr hgf) hnx
            | bool b => rw [hfp] at hok; simp at hok
            | num n => rw [hfp] at hok; simp at hok
            | str t => rw [hfp] at hok; simp at hok
            | ref b =>
              rw [hfp] at hok
              simp only [] at hok
              by_cases hbv : b ∈ vis
              · rw [if_pos hbv] at hok; simp at hok
              · rw [if_neg hbv] at hok
                cases hlb : h.lookup b with
                | none => rw [hlb] at hok; simp at hok
                | some cb =>
                  cases cb with
                  | arr es' => rw [hlb] at hok; simp at hok
                  | obj fs' =>
                    rw [hlb] at hok
                    simp only [] at hok
                    have hba : b ≠ a := fun hb => hbv (hb ▸ hmem)
                    obtain ⟨h', hrun, hget, hnext, hwf', hframe⟩ :=
                      ih hwf (List.mem_cons_self b vis) hok
                    refine ⟨h', ?_, ?_, hnext, hwf', ?_⟩
                    · rw [setWalk, if_neg (by simp [isObjectType])]
                      simp only [getProp, hla, okBind]
                      rw [if_neg hnx, hgf]
                      exact hrun
                    · rw [getWalk]
                      have hla' : h'.lookup a = some (.obj fs) := by
                        rw [hframe a (List.mem_cons_of_mem b hmem) (Ne.symm hba) ha]
                        exact hla
                      simp only [getProp, hla', okBind]
                      rw [if_neg hnx, hgf]
                      exact hget
                    · intro d hd hdne hdlt
                      exact hframe d (List.mem_cons_of_mem b hd)
                        (fun hdb => hbv (hdb ▸ hd)) hdlt

/-- `setWalk` mutates nothing on a run that returns `false`. -/
theorem setWalk_false_unchanged {ps : List String} :
    ∀ {p : String} {h : Heap} {obj v : JSVal} {h' : Heap}, h.WF →
      setWalk h obj v p ps = .ok (false, h') → h' = h := by
  induction ps with
  | nil =>
    intro p h obj v h' _ hrun
    by_cases hobj : isObjectType obj = false
    · simp [setWalk, hobj] at hrun
      exact hrun.symm
    · cases obj with
      | null => simp [setWalk, isObjectType, setProp] at hrun
      | ref a =>
        cases hl : h.lookup a with
        | none => simp [setWalk, isObjectType, setProp, hl] at hrun
        | some c => simp [setWalk, isObjectType, setProp, hl] at hrun
      | undef => simp [isObjectType] at hobj
      | bool b => simp [isObjectType] at hobj
      | num n => simp [isObjectType] at hobj
      | str s => simp [isObjectType] at hobj
  | cons p' qs ih =>
    intro p h obj v h' hwf hrun
    by_cases hobj : isObjectType obj = false
    · simp [setWalk, hobj] at hrun
      exact hrun.symm
    · cases obj with
      | null => simp [setWalk, isObjectType, getProp] at hrun
      | ref a =>
        cases hl : h.lookup a with
        | none => simp [setWalk, isObjectType, getProp, hl] at hrun
        | some c =>
          by_cases hnext : getField c p = JSVal.undef ∨ getField c p = JSVal.null
          · exfalso
            have ha : a < h.next := Heap.lookup_lt_next hwf (by simp [hl])
            have hane : a ≠ h.next := Nat.ne_of_lt ha
            have h1wf : (h.alloc (.obj [])).1.WF := Heap.WF_alloc hwf (by simp [ctrOK])
            have hl1 : (h.alloc (.obj [])).1.lookup a = some c := by
              rw [Heap.lookup_alloc_other hane]; exact hl
            have h2wf : ((h.alloc (.obj [])).1.update a
                (setField c p (.ref h.next))).WF :=
              Heap.WF_update h1wf (by simp [hl1])
                (ctrOK_setField (Heap.lookup_ctrOK hwf hl))
            have hl2 : ((h.alloc (.obj [])).1.update a
                (setField c p (.ref h.next))).lookup h.next = some (.obj []) := by
              rw [Heap.lookup_update_other (Ne.symm hane)]
              exact Heap.lookup_alloc_self
            obtain ⟨h'', htrue, -, -, -, -⟩ := setWalk_empty_obj_spec h2wf hl2
            rw [setWalk, if_neg (by simp [isObjectType])] at hrun
            simp only [getProp, hl, okBind] at hrun
            rw [if_pos hnext] at hrun
            simp only [setProp, hl1, okBind] at hrun
            simp only [Heap.alloc] at hrun htrue
            rw [htrue] at hrun
            simp at hrun
          · rw [setWalk, if_neg (by simp [isObjectType])] at hrun
            simp only [getProp, hl, okBind] at hrun
            rw [if_neg hnext] at hrun
            exact ih hwf hrun
      | undef => simp [isObjectType] at hobj
      | bool b => simp [isObjectType] at hobj
      | num n => simp [isObjectType] at hobj
      | str s => simp [isObjectType] at hobj

theorem nodup_merge_aux {args : List (List JSVal)} {acc : List JSVal}
    (h : acc.Nodup) :
    (args.foldl (fun acc arr => arr.foldl setAdd acc) acc).Nodup := by
  induction args generalizing acc with
  | nil => exact h
  | cons arr t ih => exact ih (nodup_foldl_setAdd h)

/-! ## Support lemmas for the copy theorems -/

@[simp] theorem someBind {α β : Type} (x : α) (f : α → Option β) :
    ((some x : Option α) >>= f) = f x := rfl

@[simp] theorem noneBind {α β : Type} (f : α → Option β) :
    ((none : Option α) >>= f) = none := rfl

theorem nodup_subset_length {l₁ l₂ : List Nat} (h : l₁.Nodup) (hs : l₁ ⊆ l₂) :
    l₁.length ≤ l₂.length :=
  (List.subperm_of_subset h hs).length_le

theorem readC_mem {c : Container} {f : Field} :
    readC c f = JSVal.undef ∨ readC c f ∈ ctrVals c := by
  cases c with
  | arr es =>
    cases f with
    | idx i =>
      by_cases hi : i < es.length
      · right
        show es.getD i JSVal.undef ∈ es
        rw [List.getD_eq_getElem?_getD, List.getElem?_eq_getElem hi]
        exact List.getElem_mem hi
      · left
        show es.getD i JSVal.undef = JSVal.undef
        rw [List.getD_eq_getElem?_getD, List.getElem?_eq_none (Nat.le_of_not_lt hi)]
        rfl
    | key k => left; rfl
  | obj fs =>
    cases f with
    | key k =>
      cases hk : assocLookup fs k with
      | none =>
        left
        show (assocLookup fs k).getD JSVal.undef = JSVal.undef
        rw [hk]
        rfl
      | some v =>
        right
        show (assocLookup fs k).getD JSVal.undef ∈ fs.map Prod.snd
        rw [hk]
        exact List.mem_map.mpr ⟨(k, v), assocLookup_mem hk, rfl⟩
    | idx i => left; rfl

theorem FieldRel_scalar {R : List (Nat × Nat)} {v : JSVal}
    (h : ∀ b, v ≠ JSVal.ref b) : FieldRel R v v := by
  cases v with
  | ref b => exact absurd rfl (h b)
  | undef => rfl
  | null => rfl
  | bool _ => rfl
  | num _ => rfl
  | str _ => rfl

theorem FieldRel_ref {R : List (Nat × Nat)} {b b' : Nat} (h : (b, b') ∈ R) :
    FieldRel R (JSVal.ref b) (JSVal.ref b') :=
  ⟨(b, b'), h, rfl, rfl⟩

theorem FieldRel_mono {R R' : List (Nat × Nat)} (hsub : ∀ q ∈ R, q ∈ R')
    {v v' : JSVal} (h : FieldRel R v v') : FieldRel R' v v' := by
  cases v with
  | ref b =>
    have h' : ∃ q ∈ R, q.1 = b ∧ v' = JSVal.ref q.2 := h
    obtain ⟨q, hq, h1, h2⟩ := h'
    exact ⟨q, hsub q hq, h1, h2⟩
  | undef => exact h
  | null => exact h
  | bool _ => exact h
  | num _ => exact h
  | str _ => exact h

theorem SimPairOK_mono {hOld hNew hNew' : Heap} {R R' : List (Nat × Nat)}
    {b b' : Nat} (hsub : ∀ q ∈ R, q ∈ R')
    (hl : hNew'.lookup b' = hNew.lookup b')
    (h : SimPairOK hOld hNew R b b') : SimPairOK hOld hNew' R' b b' := by
  unfold SimPairOK at h ⊢
  rw [hl]
  cases hob : hOld.lookup b with
  | none =>
    rw [hob] at h
    simp only [] at h
  | some c =>
    rw [hob] at h
    cases hnb : hNew.lookup b' with
    | none =>
      rw [hnb] at h
      simp only [] at h
    | some c' =>
      rw [hnb] at h
      simp only [] at h ⊢
      exact ⟨h.1, fun f hf => FieldRel_mono hsub (h.2 f hf)⟩

theorem SimPairOK_intro {hOld hNew : Heap} {R : List (Nat × Nat)} {b b' : Nat}
    {c c' : Container} (hob : hOld.lookup b = some c)
    (hnb : hNew.lookup b' = some c') (hs : shapeEq c c')
    (hf : ∀ f ∈ fieldsOf c, FieldRel R (readC c f) (readC c' f)) :
    SimPairOK hOld hNew R b b' := by
  unfold SimPairOK
  rw [hob, hnb]
  exact ⟨hs, hf⟩

theorem HExt_refl (h : Heap) : HExt h h := ⟨Nat.le_refl _, fun _ _ => rfl⟩

theorem HExt_trans {h0 h1 h2 : Heap} (a : HExt h0 h1) (b : HExt h1 h2) :
    HExt h0 h2 :=
  ⟨Nat.le_trans a.1 b.1,
   fun x hx => (b.2 x (Nat.lt_of_lt_of_le hx a.1)).trans (a.2 x hx)⟩

theorem HExt_lookup {h0 h : Heap} (he : HExt h0 h) {a : Nat}
    (ha : a < h0.next) : h.lookup a = h0.lookup a :=
  he.2 a ha

/-! Equation lemmas for the fuel-indexed copiers. -/

theorem cloneCtr_succ (fuel : Nat) (h : Heap) (a : Nat) :
    cloneCtr (fuel + 1) h a =
      match h.lookup a with
      | none => none
      | some c =>
        match cloneFlds fuel (h.alloc (blankCopy c)).1 a
            (h.alloc (blankCopy c)).2 (fieldsOf c) with
        | none => none
        | some h' => some (.ref (h.alloc (blankCopy c)).2, h') := rfl

theorem cloneFlds_nil (fuel : Nat) (h : Heap) (src dst : Nat) :
    cloneFlds fuel h src dst [] = some h := rfl

theorem cloneFlds_cons_eq (fuel : Nat) (h : Heap) (src dst : Nat) (f : Field)
    (fs : List Field) :
    cloneFlds fuel h src dst (f :: fs) =
      (cloneStepG (fun hh b => cloneCtr fuel hh b) src dst h f) >>= fun h1 =>
        cloneFlds fuel h1 src dst fs := rfl

theorem dupCtr_succ (fuel : Nat) (h : Heap) (refs : Refs) (a : Nat) :
    dupCtr (fuel + 1) h refs a =
      match h.lookup a with
      | none => none
      | some c =>
        match dupFlds fuel (h.alloc (blankCopy c)).1
            ((a, (h.alloc (blankCopy c)).2) :: refs) a
            (h.alloc (blankCopy c)).2 (fieldsOf c) with
        | none => none
        | some hr => some (.ref (h.alloc (blankCopy c)).2, hr.1, hr.2) := rfl

theorem dupFlds_nil (fuel : Nat) (h : Heap) (refs : Refs) (src dst : Nat) :
    dupFlds fuel h refs src dst [] = some (h, refs) := rfl

theorem dupFlds_cons_eq (fuel : Nat) (h : Heap) (refs : Refs) (src dst : Nat)
    (f : Field) (fs : List Field) :
    dupFlds fuel h refs src dst (f :: fs) =
      (dupStepG (fun hh rr b => dupCtr fuel hh rr b) src dst (h, refs) f) >>=
        fun st => dupFlds fuel st.1 st.2 src dst fs := rfl

/-! `boundRank`: normalising an acyclicity witness to a rank below the
container count. -/

theorem countP_lt_of_witness {l : List Nat} {p q : Nat → Bool}
    (himp : ∀ x ∈ l, p x = true → q x = true) {w : Nat} (hw : w ∈ l)
    (hqw : q w = true) (hpw : p w = false) :
    l.countP p < l.countP q := by
  induction l with
  | nil => simp at hw
  | cons x xs ih =>
    rcases List.mem_cons.mp hw with hx | hx
    · subst hx
      rw [List.countP_cons, List.countP_cons, hpw, hqw]
      simp only [Bool.false_eq_true, if_false, if_true]
      have hmono := List.countP_mono_left
        (fun y hy hp => himp y (List.mem_cons_of_mem _ hy) hp)
      omega
    · have hstep := ih (fun y hy hp => himp y (List.mem_cons_of_mem _ hy) hp) hx
      rw [List.countP_cons, List.countP_cons]
      by_cases hpx : p x = true
      · rw [hpx, himp x (List.mem_cons_self _ _) hpx]
        omega
      · have : p x = false := by
          cases hp : p x
          · rfl
          · exact absurd hp hpx
        rw [this]
        cases q x <;> simp <;> omega

theorem boundRank_le (h : Heap) (rank : Nat → Nat) (a : Nat) :
    boundRank h rank a ≤ h.mem.length := by
  have h1 : boundRank h rank a ≤ (h.mem.map Prod.fst).length :=
    List.countP_le_length _
  simpa using h1

theorem boundRank_lt {h : Heap} {rank : Nat → Nat} {b a : Nat}
    (hb : b ∈ h.mem.map Prod.fst) (hr : rank b < rank a) :
    boundRank h rank b < boundRank h rank a := by
  refine countP_lt_of_witness ?_ hb (by simpa using hr) (by simp)
  intro x _ hp
  simp only [decide_eq_true_eq] at hp ⊢
  omega

theorem AcyclicRank_boundRank {h : Heap} {rank : Nat → Nat}
    (hc : h.Closed) (hac : AcyclicRank h rank) :
    AcyclicRank h (boundRank h rank) := by
  intro p hp v hv
  cases v with
  | ref b =>
    have hr : rank b < rank p.1 := by
      have := hac p hp (JSVal.ref b) hv
      simpa [rankOK] using this
    have hbs : (h.lookup b).isSome := by
      have := hc p hp (JSVal.ref b) hv
      simpa [refOK] using this
    have hbm : b ∈ h.mem.map Prod.fst := by
      cases hl : h.lookup b with
      | none => rw [hl] at hbs; simp at hbs
      | some cb => exact List.mem_map.mpr ⟨(b, cb), assocLookup_mem hl, rfl⟩
    simpa [rankOK] using boundRank_lt hbm hr
  | undef => rfl
  | null => rfl
  | bool _ => rfl
  | num _ => rfl
  | str _ => rfl

theorem DstFits_some {h : Heap} {dst : Nat} {fs : List Field}
    (hfits : DstFits h dst fs) : (h.lookup dst).isSome := by
  obtain ⟨-, hfit⟩ := hfits
  cases hld : h.lookup dst with
  | none => rw [hld] at hfit; exact hfit.elim
  | some cd => simp

/-- Writing the first fitting field into the destination keeps the
remaining fields fitting, stores the value, and the resulting shape
change composes. -/
theorem DstFits_write {h : Heap} {dst : Nat} {f : Field} {fs : List Field}
    {val : JSVal} (hfits : DstFits h dst (f :: fs)) :
    DstFits (writeF h dst f val) dst fs ∧
    readF (writeF h dst f val) dst f = val ∧
    (∀ h'' : Heap, DstShape (writeF h dst f val) h'' dst fs →
      DstShape h h'' dst (f :: fs)) := by
  obtain ⟨hnd, hfit⟩ := hfits
  cases hld : h.lookup dst with
  | none => rw [hld] at hfit; exact hfit.elim
  | some cd =>
    rw [hld] at hfit
    cases cd with
    | arr ds =>
      simp only [] at hfit
      obtain ⟨i, rfl, hi⟩ := hfit f (List.mem_cons_self f fs)
      have hwl : (writeF h dst (Field.idx i) val).lookup dst
          = some (.arr (listSet ds i val)) := lookup_writeF_self hld
      have hlen : (listSet ds i val).length = ds.length := listSet_length hi
      refine ⟨⟨(List.nodup_cons.mp hnd).2, ?_⟩, readF_writeF_arr_self hld, ?_⟩
      · rw [hwl]
        intro f' hf'
        obtain ⟨j, rfl, hj⟩ := hfit f' (List.mem_cons_of_mem _ hf')
        exact ⟨j, rfl, by rw [hlen]; exact hj⟩
      · intro h'' hsh
        unfold DstShape at hsh ⊢
        rw [hwl] at hsh
        rw [hld]
        cases hl'' : h''.lookup dst with
        | none => rw [hl''] at hsh; exact hsh.elim
        | some cd'' =>
          rw [hl''] at hsh
          cases cd'' with
          | arr ds'' =>
            simp only [] at hsh ⊢
            rw [hsh]
            exact hlen
          | obj gs'' => simp only [] at hsh
    | obj gs =>
      simp only [] at hfit
      obtain ⟨hkeys, hknd⟩ := hfit
      obtain ⟨k, rfl⟩ := hkeys f (List.mem_cons_self f fs)
      have hfsk : (Field.key k :: fs).filterMap keyName
          = k :: fs.filterMap keyName := by
        simp [List.filterMap_cons, keyName]
      rw [hfsk] at hknd
      have hkgs : k ∉ gs.map Prod.fst :=
        fun hk => (List.nodup_append.mp hknd).2.2 hk (List.mem_cons_self _ _)
      have hnone : assocLookup gs k = none := assocLookup_eq_none_iff.mpr hkgs
      have hwl : (writeF h dst (Field.key k) val).lookup dst
          = some (.obj (setAssoc gs k val)) := lookup_writeF_self hld
      have hkeysw : (setAssoc gs k val).map Prod.fst = gs.map Prod.fst ++ [k] :=
        setAssoc_keys_of_none hnone
      refine ⟨⟨(List.nodup_cons.mp hnd).2, ?_⟩, readF_writeF_obj_self hld, ?_⟩
      · rw [hwl]
        refine ⟨fun f' hf' => hkeys f' (List.mem_cons_of_mem _ hf'), ?_⟩
        rw [hkeysw, List.append_assoc]
        exact hknd
      · intro h'' hsh
        unfold DstShape at hsh ⊢
        rw [hwl] at hsh
        rw [hld]
        cases hl'' : h''.lookup dst with
        | none => rw [hl''] at hsh; exact hsh.elim
        | some cd'' =>
          rw [hl''] at hsh
          cases cd'' with
          | arr ds'' => simp only [] at hsh
          | obj gs'' =>
            simp only [] at hsh ⊢
            rw [hsh, hkeysw, List.append_assoc]
            rfl

theorem DstFits_congr {h h' : Heap} {dst : Nat} {fs : List Field}
    (hl : h'.lookup dst = h.lookup dst) (hfits : DstFits h dst fs) :
    DstFits h' dst fs := by
  unfold DstFits at hfits ⊢
  rw [hl]
  exact hfits

theorem DstShape_congr_left {h h1 h'' : Heap} {dst : Nat} {fs : List Field}
    (hl : h1.lookup dst = h.lookup dst) (hsh : DstShape h1 h'' dst fs) :
    DstShape h h'' dst fs := by
  unfold DstShape at hsh ⊢
  rw [hl] at hsh
  exact hsh

/-- The field loop of the cloner is correct, given the container-level
statement at the same fuel. -/
theorem clone_flds_of_ctr {fuel : Nat} (hctr : CloneCtrStmt fuel) :
    CloneFldsStmt fuel := by
  intro h0 rank hwf0 hcl0 hac fs
  induction fs with
  | nil =>
    intro h src dst c hwf hext hsrc hlsrc hrank hdst0 hdsth hfits
    refine ⟨h, [], cloneFlds_nil _ _ _ _, Nat.le_refl _, hwf, hext,
      fun b _ _ => rfl, fun f hf => absurd hf (List.not_mem_nil f),
      fun f _ => rfl, ?_, fun q hq => absurd hq (List.not_mem_nil q),
      fun q hq => absurd hq (List.not_mem_nil q)⟩
    unfold DstShape
    obtain ⟨-, hfit⟩ := hfits
    cases hld : h.lookup dst with
    | none => rw [hld] at hfit; exact hfit.elim
    | some cd => cases cd <;> simp
  | cons f fs ih =>
    intro h src dst c hwf hext hsrc hlsrc hrank hdst0 hdsth hfits
    have hlsrch : h.lookup src = some c := by
      rw [HExt_lookup hext hsrc]; exact hlsrc
    have hreadF : readF h src f = readC c f := by
      rw [readF, hlsrch]
    have hfnotfs : f ∉ fs := (List.nodup_cons.mp hfits.1).1
    -- the common continuation after the step produced the value to write
    have cont : ∀ (hpre : Heap) (Rf : List (Nat × Nat)) (val : JSVal),
        hpre.WF → HExt h0 hpre → h.next ≤ hpre.next →
        (∀ x, x < h.next → hpre.lookup x = h.lookup x) →
        (∀ q ∈ Rf, q.1 < h0.next ∧ (h0.lookup q.1).isSome ∧
          h.next ≤ q.2 ∧ q.2 < hpre.next ∧ (hpre.lookup q.2).isSome) →
        Sim h0 hpre Rf →
        FieldRel Rf (readC c f) val →
        cloneStepG (fun hh b => cloneCtr fuel hh b) src dst h f
          = some (writeF hpre dst f val) →
        ∃ (h' : Heap) (R : List (Nat × Nat)),
          cloneFlds fuel h src dst (f :: fs) = some h' ∧
          h.next ≤ h'.next ∧ h'.WF ∧ HExt h0 h' ∧
          (∀ b, b < h.next → b ≠ dst → h'.lookup b = h.lookup b) ∧
          (∀ f' ∈ (f :: fs), FieldRel R (readC c f') (readF h' dst f')) ∧
          (∀ f', f' ∉ (f :: fs) → readF h' dst f' = readF h dst f') ∧
          DstShape h h' dst (f :: fs) ∧
          (∀ q ∈ R, q.1 < h0.next ∧ (h0.lookup q.1).isSome ∧
            h.next ≤ q.2 ∧ q.2 < h'.next ∧ (h'.lookup q.2).isSome) ∧
          Sim h0 h' R := by
      intro hpre Rf val hwfp hextp hnextp hframep hRf hSimf hFR hstep
      have hldp : hpre.lookup dst = h.lookup dst := hframep dst hdsth
      have hfitsp : DstFits hpre dst (f :: fs) := DstFits_congr hldp hfits
      obtain ⟨hfits_w, hread_w, hshape_comp⟩ := @DstFits_write _ _ _ _ val hfitsp
      have hnext_w : (writeF hpre dst f val).next = hpre.next := writeF_next ..
      have hwf_w : (writeF hpre dst f val).WF := Heap.WF_writeF hwfp
      have hext_w : HExt h0 (writeF hpre dst f val) := by
        refine ⟨by rw [hnext_w]; exact hextp.1, fun x hx => ?_⟩
        rw [lookup_writeF_other (by omega), hextp.2 x hx]
      obtain ⟨h', Rr, hrun_r, hnext_r, hwf', hext', hframe_r, hfld_r, hofld_r,
        hshape_r, hRr, hSimr⟩ :=
        ih (writeF hpre dst f val) src dst c hwf_w hext_w hsrc hlsrc hrank
          hdst0 (by omega) hfits_w
      refine ⟨h', Rf ++ Rr, ?_, by omega, hwf', hext', ?_, ?_, ?_, ?_, ?_, ?_⟩
      · rw [cloneFlds_cons_eq, hstep]
        simp only [someBind]
        exact hrun_r
      · intro b hb hbdst
        rw [hframe_r b (by omega) hbdst, lookup_writeF_other hbdst, hframep b hb]
      · intro f' hf'
        rcases List.mem_cons.mp hf' with rfl | hf'
        · rw [hofld_r f' hfnotfs, hread_w]
          exact FieldRel_mono (fun q hq => List.mem_append_left _ hq) hFR
        · exact FieldRel_mono (fun q hq => List.mem_append_right _ hq)
            (hfld_r f' hf')
      · intro f' hf'
        have hf'fs : f' ∉ fs := fun hx => hf' (List.mem_cons_of_mem _ hx)
        have hf'f : f' ≠ f := fun hx => hf' (hx ▸ List.mem_cons_self f fs)
        rw [hofld_r f' hf'fs, readF_writeF_other_field hf'f,
          readF_congr_lookup hldp]
      · exact DstShape_congr_left hldp (hshape_comp h' hshape_r)
      · intro q hq
        rcases List.mem_append.mp hq with hq | hq
        · obtain ⟨h1, h2, h3, h4, h5⟩ := hRf q hq
          have hlq : h'.lookup q.2 = hpre.lookup q.2 := by
            rw [hframe_r q.2 (by omega) (by omega),
              lookup_writeF_other (by omega)]
          exact ⟨h1, h2, h3, by omega, by rw [hlq]; exact h5⟩
        · obtain ⟨h1, h2, h3, h4, h5⟩ := hRr q hq
          exact ⟨h1, h2, by omega, h4, h5⟩
      · intro q hq
        rcases List.mem_append.mp hq with hq' | hq'
        · have hlq : h'.lookup q.2 = hpre.lookup q.2 := by
            obtain ⟨-, -, h3, h4, -⟩ := hRf q hq'
            rw [hframe_r q.2 (by omega) (by omega),
              lookup_writeF_other (by omega)]
          exact SimPairOK_mono (fun r hr => List.mem_append_left _ hr) hlq
            (hSimf q hq')
        · exact SimPairOK_mono (fun r hr => List.mem_append_right _ hr) rfl
            (hSimr q hq')
    cases hval : readC c f with
    | undef =>
      exact cont h [] JSVal.undef hwf hext (Nat.le_refl _) (fun _ _ => rfl)
        (fun q hq => absurd hq (List.not_mem_nil q))
        (fun q hq => absurd hq (List.not_mem_nil q))
        (by rw [hval]; exact rfl)
        (by unfold cloneStepG; rw [hreadF, hval])
    | null =>
      exact cont h [] JSVal.null hwf hext (Nat.le_refl _) (fun _ _ => rfl)
        (fun q hq => absurd hq (List.not_mem_nil q))
        (fun q hq => absurd hq (List.not_mem_nil q))
        (by rw [hval]; exact rfl)
        (by unfold cloneStepG; rw [hreadF, hval])
    | bool bv =>
      exact cont h [] (JSVal.bool bv) hwf hext (Nat.le_refl _) (fun _ _ => rfl)
        (fun q hq => absurd hq (List.not_mem_nil q))
        (fun q hq => absurd hq (List.not_mem_nil q))
        (by rw [hval]; exact rfl)
        (by unfold cloneStepG; rw [hreadF, hval])
    | num nv =>
      exact cont h [] (JSVal.num nv) hwf hext (Nat.le_refl _) (fun _ _ => rfl)
        (fun q hq => absurd hq (List.not_mem_nil q))
        (fun q hq => absurd hq (List.not_mem_nil q))
        (by rw [hval]; exact rfl)
        (by unfold cloneStepG; rw [hreadF, hval])
    | str sv =>
      exact cont h [] (JSVal.str sv) hwf hext (Nat.le_refl _) (fun _ _ => rfl)
        (fun q hq => absurd hq (List.not_mem_nil q))
        (fun q hq => absurd hq (List.not_mem_nil q))
        (by rw [hval]; exact rfl)
        (by unfold cloneStepG; rw [hreadF, hval])
    | ref b =>
      -- the field holds a container: the cloner recurses
      have hmemb : JSVal.ref b ∈ ctrVals c := by
        rcases readC_mem (c := c) (f := f) with hu | hm
        · rw [hval] at hu; exact absurd hu (by simp)
        · rw [hval] at hm; exact hm
      have hsrcmem : (src, c) ∈ h0.mem := assocLookup_mem hlsrc
      have hbs : (h0.lookup b).isSome := by
        have := hcl0 (src, c) hsrcmem (JSVal.ref b) hmemb
        simpa [refOK] using this
      have hblt : b < h0.next := Heap.lookup_lt_next hwf0 hbs
      have hbrank : rank b < fuel := by
        have := hac (src, c) hsrcmem (JSVal.ref b) hmemb
        simp only [rankOK, decide_eq_true_eq] at this
        omega
      obtain ⟨b', hc, Rf, hrun_c, hb'ic, hnext_c, hwf_c, hext_c, hframe_c,
        hRf, hmemf, hSimf⟩ :=
        hctr h0 rank hwf0 hcl0 hac h b hwf hext hblt hbs hbrank
      refine cont hc Rf (JSVal.ref b') hwf_c hext_c (by omega)
        (fun x hx => hframe_c x hx) hRf hSimf
        (by rw [hval]; exact FieldRel_ref hmemf) ?_
      unfold cloneStepG
      rw [hreadF, hval]
      simp only []
      rw [hrun_c]

theorem ctrOK_blankCopy {c : Container} : ctrOK (blankCopy c) := by
  cases c <;> simp [blankCopy, ctrOK]

theorem keys_filterMap_keyName (fs : List (String × JSVal)) :
    (fs.map (fun p => Field.key p.1)).filterMap keyName = fs.map Prod.fst := by
  induction fs with
  | nil => rfl
  | cons p t ih => simp [List.filterMap_cons, keyName, ih]

theorem fieldsOf_nodup {c : Container} (hc : ctrOK c) : (fieldsOf c).Nodup := by
  cases c with
  | arr es =>
    exact List.Nodup.map (fun a b hab => Field.idx.inj hab) (List.nodup_range _)
  | obj fs =>
    have heq : fieldsOf (.obj fs) = (fs.map Prod.fst).map Field.key := by
      simp [fieldsOf, List.map_map]
    rw [heq]
    exact List.Nodup.map (fun a b hab => Field.key.inj hab) hc

theorem DstShape_some_right {h h' : Heap} {dst : Nat} {fs : List Field}
    (hsh : DstShape h h' dst fs) : (h'.lookup dst).isSome := by
  unfold DstShape at hsh
  cases hl : h'.lookup dst with
  | some cd' => simp
  | none =>
    rw [hl] at hsh
    cases h0l : h.lookup dst with
    | none => rw [h0l] at hsh; exact hsh.elim
    | some cd =>
      rw [h0l] at hsh
      cases cd <;> exact hsh.elim

/-- Container-level step of the cloner correctness induction. -/
theorem clone_ctr_step {fuel : Nat} (hflds : CloneFldsStmt fuel) :
    CloneCtrStmt (fuel + 1) := by
  intro h0 rank hwf0 hcl0 hac h a hwf hext halt has hrank
  have hlah : h.lookup a = h0.lookup a := HExt_lookup hext halt
  cases hla0 : h0.lookup a with
  | none => rw [hla0] at has; simp at has
  | some c =>
    have hlah' : h.lookup a = some c := by rw [hlah, hla0]
    have hcok : ctrOK c := Heap.lookup_ctrOK hwf0 hla0
    have h1wf : (h.alloc (blankCopy c)).1.WF := Heap.WF_alloc hwf ctrOK_blankCopy
    have hn1 : (h.alloc (blankCopy c)).1.next = h.next + 1 := rfl
    have hext1 : HExt h0 (h.alloc (blankCopy c)).1 := by
      refine ⟨by rw [hn1]; have := hext.1; omega, fun b hb => ?_⟩
      rw [Heap.lookup_alloc_other (by have := hext.1; omega)]
      exact hext.2 b hb
    have hds : (h.alloc (blankCopy c)).1.lookup h.next = some (blankCopy c) :=
      Heap.lookup_alloc_self
    have hfits : DstFits (h.alloc (blankCopy c)).1 h.next (fieldsOf c) := by
      refine ⟨fieldsOf_nodup hcok, ?_⟩
      rw [hds]
      cases c with
      | arr es =>
        show ∀ f ∈ fieldsOf (Container.arr es), ∃ i, f = Field.idx i ∧
          i < (List.replicate es.length JSVal.undef).length
        intro f hf
        obtain ⟨i, hi, rfl⟩ := by
          simpa only [fieldsOf, List.mem_map, List.mem_range] using hf
        exact ⟨i, rfl, by simpa using hi⟩
      | obj fs =>
        show (∀ f ∈ fieldsOf (Container.obj fs), ∃ k, f = Field.key k) ∧
          ((([] : List (String × JSVal)).map Prod.fst)
            ++ (fieldsOf (Container.obj fs)).filterMap keyName).Nodup
        constructor
        · intro f hf
          obtain ⟨p, hp, rfl⟩ := List.mem_map.mp hf
          exact ⟨p.1, rfl⟩
        · rw [List.map_nil, List.nil_append,
            show fieldsOf (Container.obj fs) = fs.map (fun p => Field.key p.1)
              from rfl, keys_filterMap_keyName]
          exact hcok
    obtain ⟨h', R, hrun, hnext', hwf', hext', hframe', hfld, hofld, hshape,
      hRO, hSim⟩ :=
      hflds h0 rank hwf0 hcl0 hac (fieldsOf c) (h.alloc (blankCopy c)).1 a
        h.next c h1wf hext1 halt hla0 (by omega) hext.1
        (by rw [hn1]; omega) hfits
    have hnext'' : h.next + 1 ≤ h'.next := hnext'
    have hcopy : (h'.lookup h.next).isSome := DstShape_some_right hshape
    refine ⟨h.next, h', (a, h.next) :: R, ?_, rfl, by omega, hwf', hext',
      ?_, ?_, List.mem_cons_self _ _, ?_⟩
    · rw [cloneCtr_succ, hlah']
      simp only []
      rw [show (h.alloc (blankCopy c)).2 = h.next from rfl, hrun]
    · intro b hb
      rw [hframe' b (show b < h.next + 1 by omega) (by omega),
        Heap.lookup_alloc_other (by omega)]
    · intro q hq
      rcases List.mem_cons.mp hq with rfl | hq
      · exact ⟨halt, has, Nat.le_refl _, by omega, hcopy⟩
      · obtain ⟨h1', h2', h3', h4', h5'⟩ := hRO q hq
        have h3'' : h.next + 1 ≤ q.2 := h3'
        exact ⟨h1', h2', by omega, h4', h5'⟩
    · intro q hq
      rcases List.mem_cons.mp hq with rfl | hq
      · cases hcl : h'.lookup h.next with
        | none => rw [hcl] at hcopy; simp at hcopy
        | some c' =>
          have hsh := hshape
          unfold DstShape at hsh
          rw [hds, hcl] at hsh
          have hflds' : ∀ f ∈ fieldsOf c,
              FieldRel R (readC c f) (readC c' f) := by
            intro f hf
            have hx := hfld f hf
            simp only [readF, hcl] at hx
            exact hx
          cases c with
          | arr es =>
            simp only [blankCopy] at hsh
            cases c' with
            | arr es' =>
              simp only [] at hsh
              refine SimPairOK_intro hla0 hcl ?_ ?_
              · show es.length = es'.length
                rw [hsh]
                simp
              · intro f hf
                exact FieldRel_mono (fun r hr => List.mem_cons_of_mem _ hr)
                  (hflds' f hf)
            | obj gs' => simp only [] at hsh
          | obj fs =>
            simp only [blankCopy] at hsh
            cases c' with
            | arr es' => simp only [] at hsh
            | obj gs' =>
              simp only [] at hsh
              refine SimPairOK_intro hla0 hcl ?_ ?_
              · show fs.map Prod.fst = gs'.map Prod.fst
                rw [hsh, List.map_nil, List.nil_append,
                  show fieldsOf (Container.obj fs)
                    = fs.map (fun p => Field.key p.1) from rfl,
                  keys_filterMap_keyName]
              · intro f hf
                exact FieldRel_mono (fun r hr => List.mem_cons_of_mem _ hr)
                  (hflds' f hf)
      · exact SimPairOK_mono (fun r hr => List.mem_cons_of_mem _ hr) rfl
          (hSim q hq)

theorem lookup_isSome_mem_keys {h : Heap} {a : Nat}
    (hs : (h.lookup a).isSome) : a ∈ h.mem.map Prod.fst := by
  cases hl : h.lookup a with
  | none => rw [hl] at hs; simp at hs
  | some c => exact List.mem_map.mpr ⟨(a, c), assocLookup_mem hl, rfl⟩

theorem nodup_fst_unique {l : List (Nat × Nat)} (hkn : (l.map Prod.fst).Nodup)
    {p q : Nat × Nat} (hp : p ∈ l) (hq : q ∈ l) (he : p.1 = q.1) : p = q := by
  induction l with
  | nil => exact absurd hp (List.not_mem_nil p)
  | cons x t ih =>
    simp only [List.map_cons, List.nodup_cons] at hkn
    rcases List.mem_cons.mp hp with rfl | hp'
    · rcases List.mem_cons.mp hq with rfl | hq'
      · rfl
      · exact absurd (List.mem_map.mpr ⟨q, hq', he.symm⟩) hkn.1
    · rcases List.mem_cons.mp hq with rfl | hq'
      · exact absurd (List.mem_map.mpr ⟨p, hp', he⟩) hkn.1
      · exact ih hkn.2 hp' hq'

theorem nodup_snd_unique {l : List (Nat × Nat)} (hvn : (l.map Prod.snd).Nodup)
    {p q : Nat × Nat} (hp : p ∈ l) (hq : q ∈ l) (he : p.2 = q.2) : p = q := by
  induction l with
  | nil => exact absurd hp (List.not_mem_nil p)
  | cons x t ih =>
    simp only [List.map_cons, List.nodup_cons] at hvn
    rcases List.mem_cons.mp hp with rfl | hp'
    · rcases List.mem_cons.mp hq with rfl | hq'
      · rfl
      · exact absurd (List.mem_map.mpr ⟨q, hq', he.symm⟩) hvn.1
    · rcases List.mem_cons.mp hq with rfl | hq'
      · exact absurd (List.mem_map.mpr ⟨p, hp', he⟩) hvn.1
      · exact ih hvn.2 hp' hq'

theorem append_singleton_cons {α : Type} (l : List α) (x : α) (l' : List α) :
    (l ++ [x]) ++ l' = l ++ x :: l' := by
  rw [List.append_assoc]
  rfl

theorem readC_ref_mem_fields {c : Container} {f : Field} {b : Nat}
    (h : readC c f = JSVal.ref b) : f ∈ fieldsOf c := by
  cases c with
  | arr es =>
    cases f with
    | idx i =>
      by_cases hi : i < es.length
      · exact List.mem_map.mpr ⟨i, List.mem_range.mpr hi, rfl⟩
      · exfalso
        have : readC (Container.arr es) (Field.idx i) = JSVal.undef := by
          show es.getD i JSVal.undef = JSVal.undef
          rw [List.getD_eq_getElem?_getD, List.getElem?_eq_none (Nat.le_of_not_lt hi)]
          rfl
        rw [this] at h
        exact JSVal.noConfusion h
    | key k => exact absurd h (by simp [readC])
  | obj fs =>
    cases f with
    | key k =>
      cases hk : assocLookup fs k with
      | none =>
        exfalso
        have : readC (Container.obj fs) (Field.key k) = JSVal.undef := by
          show (assocLookup fs k).getD JSVal.undef = JSVal.undef
          rw [hk]
          rfl
        rw [this] at h
        exact JSVal.noConfusion h
      | some v =>
        exact List.mem_map.mpr ⟨(k, v), assocLookup_mem hk, rfl⟩
    | idx i => exact absurd h (by simp [readC])

/-- The cloner correctness statement holds at every fuel. -/
theorem clone_ctr_all : ∀ fuel, CloneCtrStmt fuel := by
  intro fuel
  induction fuel with
  | zero =>
    intro h0 rank _ _ _ h a _ _ _ _ hrank
    exact absurd hrank (Nat.not_lt_zero _)
  | succ n ihn => exact clone_ctr_step (clone_flds_of_ctr ihn)

/-- The field loop of the duplicator is correct, given the container-level
statement at the same fuel. -/
theorem dup_flds_of_ctr {fuel : Nat} (hctr : DupCtrStmt fuel) :
    DupFldsStmt fuel := by
  intro h0 hwf0 hcl0 fs
  induction fs with
  | nil =>
    intro h refs src dst c hwf hext hRefs hkn hvn hsrc hlsrc hsd hfits hfuel
    refine ⟨h, [], dupFlds_nil _ _ _ _ _, Nat.le_refl _, hwf, hext,
      fun b _ _ => rfl, hRefs, hkn, hvn,
      fun q hq => absurd hq (List.not_mem_nil q),
      fun f hf => absurd hf (List.not_mem_nil f),
      fun f _ => rfl, ?_,
      fun q hq => absurd hq (List.not_mem_nil q),
      fun q _ _ hsim => hsim⟩
    unfold DstShape
    obtain ⟨-, hfit⟩ := hfits
    cases hld : h.lookup dst with
    | none => rw [hld] at hfit; exact hfit.elim
    | some cd => cases cd <;> simp
  | cons f fs ih =>
    intro h refs src dst c hwf hext hRefs hkn hvn hsrc hlsrc hsd hfits hfuel
    obtain ⟨-, -, hdst0, hdstlt, hdsts⟩ := hRefs (src, dst) hsd
    have hlsrch : h.lookup src = some c := by
      rw [HExt_lookup hext hsrc]; exact hlsrc
    have hreadF : readF h src f = readC c f := by
      rw [readF, hlsrch]
    have hfnotfs : f ∉ fs := (List.nodup_cons.mp hfits.1).1
    have cont : ∀ (hpre : Heap) (newC : Refs) (val : JSVal),
        hpre.WF → HExt h0 hpre → h.next ≤ hpre.next →
        (∀ x, x < h.next → hpre.lookup x = h.lookup x) →
        RefsOK h0 hpre (newC ++ refs) →
        ((newC ++ refs).map Prod.fst).Nodup →
        ((newC ++ refs).map Prod.snd).Nodup →
        (∀ q ∈ newC, h.next ≤ q.2) →
        FieldRel (newC ++ refs) (readC c f) val →
        (∀ q ∈ newC, SimPairOK h0 hpre (newC ++ refs) q.1 q.2) →
        (∀ q ∈ refs, q.2 ≠ dst → SimPairOK h0 h refs q.1 q.2 →
          SimPairOK h0 hpre (newC ++ refs) q.1 q.2) →
        dupStepG (fun hh rr b => dupCtr fuel hh rr b) src dst (h, refs) f
          = some (writeF hpre dst f val, newC ++ refs) →
        ∃ (h' : Heap) (new : Refs),
          dupFlds fuel h refs src dst (f :: fs) = some (h', new ++ refs) ∧
          h.next ≤ h'.next ∧ h'.WF ∧ HExt h0 h' ∧
          (∀ b, b < h.next → b ≠ dst → h'.lookup b = h.lookup b) ∧
          RefsOK h0 h' (new ++ refs) ∧
          ((new ++ refs).map Prod.fst).Nodup ∧
          ((new ++ refs).map Prod.snd).Nodup ∧
          (∀ q ∈ new, h.next ≤ q.2) ∧
          (∀ f' ∈ (f :: fs), FieldRel (new ++ refs) (readC c f')
            (readF h' dst f')) ∧
          (∀ f', f' ∉ (f :: fs) → readF h' dst f' = readF h dst f') ∧
          DstShape h h' dst (f :: fs) ∧
          (∀ q ∈ new, SimPairOK h0 h' (new ++ refs) q.1 q.2) ∧
          (∀ q ∈ refs, q.2 ≠ dst → SimPairOK h0 h refs q.1 q.2 →
            SimPairOK h0 h' (new ++ refs) q.1 q.2) := by
      intro hpre newC val hwfp hextp hnextp hframep hRefsp hknp hvnp hnewCge
        hFR hnewSim hpres hstep
      have hldp : hpre.lookup dst = h.lookup dst := hframep dst hdstlt
      have hfitsp : DstFits hpre dst (f :: fs) := DstFits_congr hldp hfits
      obtain ⟨hfits_w, hread_w, hshape_comp⟩ := @DstFits_write _ _ _ _ val hfitsp
      have hnext_w : (writeF hpre dst f val).next = hpre.next := writeF_next ..
      have hwf_w : (writeF hpre dst f val).WF := Heap.WF_writeF hwfp
      have hext_w : HExt h0 (writeF hpre dst f val) := by
        refine ⟨by rw [hnext_w]; exact hextp.1, fun x hx => ?_⟩
        rw [lookup_writeF_other (by omega), hextp.2 x hx]
      have hRefs_w : RefsOK h0 (writeF hpre dst f val) (newC ++ refs) := by
        intro q hq
        obtain ⟨h1', h2', h3', h4', h5'⟩ := hRefsp q hq
        refine ⟨h1', h2', h3', by rw [hnext_w]; exact h4', ?_⟩
        by_cases hqd : q.2 = dst
        · subst hqd
          cases hld : hpre.lookup q.2 with
          | none => rw [hld] at h5'; simp at h5'
          | some cd => rw [lookup_writeF_self hld]; simp
        · rw [lookup_writeF_other hqd]; exact h5'
      obtain ⟨h', newR, hrun_r, hnext_r, hwf', hext', hframe_r, hRefs', hkn',
        hvn', hnewRge, hfld_r, hofld_r, hshape_r, hnewSim_r, hpres_r⟩ :=
        ih (writeF hpre dst f val) (newC ++ refs) src dst c hwf_w hext_w
          hRefs_w hknp hvnp hsrc hlsrc (List.mem_append_right _ hsd) hfits_w
          (by rw [List.length_append]; omega)
      rw [hnext_w] at hnext_r
      refine ⟨h', newR ++ newC, ?_, by omega, hwf', hext', ?_, ?_, ?_, ?_, ?_,
        ?_, ?_, ?_, ?_, ?_⟩
      · rw [dupFlds_cons_eq, hstep]
        simp only [someBind]
        rw [List.append_assoc]
        exact hrun_r
      · intro b hb hbdst
        rw [hframe_r b (by rw [hnext_w]; omega) hbdst,
          lookup_writeF_other hbdst, hframep b hb]
      · rw [List.append_assoc]
        exact hRefs'
      · rw [List.append_assoc]
        exact hkn'
      · rw [List.append_assoc]
        exact hvn'
      · intro q hq
        rcases List.mem_append.mp hq with hq | hq
        · have := hnewRge q hq
          rw [hnext_w] at this
          omega
        · exact hnewCge q hq
      · intro f' hf'
        rcases List.mem_cons.mp hf' with rfl | hf'
        · rw [hofld_r f' hfnotfs, hread_w]
          exact FieldRel_mono
            (fun q hq => by rw [List.append_assoc]; exact List.mem_append_right _ hq)
            hFR
        · refine FieldRel_mono (fun q hq => by rw [List.append_assoc]; exact hq)
            (hfld_r f' hf')
      · intro f' hf'
        have hf'fs : f' ∉ fs := fun hx => hf' (List.mem_cons_of_mem _ hx)
        have hf'f : f' ≠ f := fun hx => hf' (hx ▸ List.mem_cons_self f fs)
        rw [hofld_r f' hf'fs, readF_writeF_other_field hf'f,
          readF_congr_lookup hldp]
      · exact DstShape_congr_left hldp (hshape_comp h' hshape_r)
      · intro q hq
        rcases List.mem_append.mp hq with hq | hq
        · refine SimPairOK_mono (fun r hr => by rw [List.append_assoc]; exact hr)
            rfl (hnewSim_r q hq)
        · have hq2 : h.next ≤ q.2 := hnewCge q hq
          have hsim1 : SimPairOK h0 (writeF hpre dst f val) (newC ++ refs) q.1 q.2 :=
            SimPairOK_mono (fun r hr => hr)
              (lookup_writeF_other (by omega)) (hnewSim q hq)
          refine SimPairOK_mono (fun r hr => by rw [List.append_assoc]; exact hr)
            rfl (hpres_r q (List.mem_append_left _ hq) (by omega) hsim1)
      · intro q hq hqd hsim
        have hsim1 : SimPairOK h0 hpre (newC ++ refs) q.1 q.2 :=
          hpres q hq hqd hsim
        have hsim2 : SimPairOK h0 (writeF hpre dst f val) (newC ++ refs) q.1 q.2 :=
          SimPairOK_mono (fun r hr => hr) (lookup_writeF_other hqd) hsim1
        refine SimPairOK_mono (fun r hr => by rw [List.append_assoc]; exact hr)
          rfl (hpres_r q (List.mem_append_right _ hq) hqd hsim2)
    cases hval : readC c f with
    | undef =>
      exact cont h [] JSVal.undef hwf hext (Nat.le_refl _) (fun _ _ => rfl)
        hRefs hkn hvn (fun q hq => absurd hq (List.not_mem_nil q))
        (by rw [hval]; exact rfl)
        (fun q hq => absurd hq (List.not_mem_nil q))
        (fun q _ _ hsim => hsim)
        (by unfold dupStepG; simp only []; rw [hreadF, hval]; rfl)
    | null =>
      exact cont h [] JSVal.null hwf hext (Nat.le_refl _) (fun _ _ => rfl)
        hRefs hkn hvn (fun q hq => absurd hq (List.not_mem_nil q))
        (by rw [hval]; exact rfl)
        (fun q hq => absurd hq (List.not_mem_nil q))
        (fun q _ _ hsim => hsim)
        (by unfold dupStepG; simp only []; rw [hreadF, hval]; rfl)
    | bool bv =>
      exact cont h [] (JSVal.bool bv) hwf hext (Nat.le_refl _) (fun _ _ => rfl)
        hRefs hkn hvn (fun q hq => absurd hq (List.not_mem_nil q))
        (by rw [hval]; exact rfl)
        (fun q hq => absurd hq (List.not_mem_nil q))
        (fun q _ _ hsim => hsim)
        (by unfold dupStepG; simp only []; rw [hreadF, hval]; rfl)
    | num nv =>
      exact cont h [] (JSVal.num nv) hwf hext (Nat.le_refl _) (fun _ _ => rfl)
        hRefs hkn hvn (fun q hq => absurd hq (List.not_mem_nil q))
        (by rw [hval]; exact rfl)
        (fun q hq => absurd hq (List.not_mem_nil q))
        (fun q _ _ hsim => hsim)
        (by unfold dupStepG; simp only []; rw [hreadF, hval]; rfl)
    | str sv =>
      exact cont h [] (JSVal.str sv) hwf hext (Nat.le_refl _) (fun _ _ => rfl)
        hRefs hkn hvn (fun q hq => absurd hq (List.not_mem_nil q))
        (by rw [hval]; exact rfl)
        (fun q hq => absurd hq (List.not_mem_nil q))
        (fun q _ _ hsim => hsim)
        (by unfold dupStepG; simp only []; rw [hreadF, hval]; rfl)
    | ref b =>
      cases hlb : assocLookup refs b with
      | some b' =>
        exact cont h [] (JSVal.ref b') hwf hext (Nat.le_refl _) (fun _ _ => rfl)
          hRefs hkn hvn (fun q hq => absurd hq (List.not_mem_nil q))
          (by rw [hval]; exact FieldRel_ref (assocLookup_mem hlb))
          (fun q hq => absurd hq (List.not_mem_nil q))
          (fun q _ _ hsim => hsim)
          (by unfold dupStepG; simp only []; rw [hreadF, hval]; simp only [];
              rw [hlb]; rfl)
      | none =>
        have hmemb : JSVal.ref b ∈ ctrVals c := by
          rcases readC_mem (c := c) (f := f) with hu | hm
          · rw [hval] at hu; exact absurd hu (by simp)
          · rw [hval] at hm; exact hm
        have hsrcmem : (src, c) ∈ h0.mem := assocLookup_mem hlsrc
        have hbs : (h0.lookup b).isSome := by
          have := hcl0 (src, c) hsrcmem (JSVal.ref b) hmemb
          simpa [refOK] using this
        have hblt : b < h0.next := Heap.lookup_lt_next hwf0 hbs
        have hbk : b ∉ refs.map Prod.fst := assocLookup_eq_none_iff.mp hlb
        obtain ⟨h_c, newB, hrun_c, hnext_c, hwf_c, hext_c, hframe_c, hRefs_c,
          hkn_c, hvn_c, hnewBgt, hsim_c, hpres_c⟩ :=
          hctr h0 hwf0 hcl0 h refs b hwf hext hRefs hkn hvn hblt hbs hbk hfuel
        refine cont h_c (newB ++ [(b, h.next)]) (JSVal.ref h.next) hwf_c hext_c
          (by omega) (fun x hx => hframe_c x hx) ?_ ?_ ?_ ?_ ?_ ?_ ?_ ?_
        · rw [append_singleton_cons]
          exact hRefs_c
        · rw [append_singleton_cons]
          exact hkn_c
        · rw [append_singleton_cons]
          exact hvn_c
        · intro q hq
          rcases List.mem_append.mp hq with hq | hq
          · exact Nat.le_of_lt (hnewBgt q hq)
          · rw [List.mem_singleton.mp hq]
        · rw [hval, append_singleton_cons]
          exact FieldRel_ref
            (List.mem_append_right _ (List.mem_cons_self _ _))
        · intro q hq
          rw [append_singleton_cons]
          refine hsim_c q ?_
          rcases List.mem_append.mp hq with hq | hq
          · exact Or.inl hq
          · exact Or.inr (List.mem_singleton.mp hq)
        · intro q hq hqd hsim
          rw [append_singleton_cons]
          exact hpres_c q hq hsim
        · unfold dupStepG
          simp only []
          rw [hreadF, hval]
          simp only []
          rw [hlb]
          simp only []
          rw [hrun_c, append_singleton_cons]

/-- Container-level step of the duplicator correctness induction: the
fresh copy is registered at `h.next` before the fields are duplicated. -/
theorem dup_ctr_step {fuel : Nat} (hflds : DupFldsStmt fuel) :
    DupCtrStmt (fuel + 1) := by
  intro h0 hwf0 hcl0 h refs a hwf hext hRefs hkn hvn halt has hak hfuel
  have hlah : h.lookup a = h0.lookup a := HExt_lookup hext halt
  cases hla0 : h0.lookup a with
  | none => rw [hla0] at has; simp at has
  | some c =>
    have hlah' : h.lookup a = some c := by rw [hlah, hla0]
    have hcok : ctrOK c := Heap.lookup_ctrOK hwf0 hla0
    have h1wf : (h.alloc (blankCopy c)).1.WF := Heap.WF_alloc hwf ctrOK_blankCopy
    have hn1 : (h.alloc (blankCopy c)).1.next = h.next + 1 := rfl
    have hext1 : HExt h0 (h.alloc (blankCopy c)).1 := by
      refine ⟨by rw [hn1]; have := hext.1; omega, fun b hb => ?_⟩
      rw [Heap.lookup_alloc_other (by have := hext.1; omega)]
      exact hext.2 b hb
    have hds : (h.alloc (blankCopy c)).1.lookup h.next = some (blankCopy c) :=
      Heap.lookup_alloc_self
    have hfits : DstFits (h.alloc (blankCopy c)).1 h.next (fieldsOf c) := by
      refine ⟨fieldsOf_nodup hcok, ?_⟩
      rw [hds]
      cases c with
      | arr es =>
        show ∀ f ∈ fieldsOf (Container.arr es), ∃ i, f = Field.idx i ∧
          i < (List.replicate es.length JSVal.undef).length
        intro f hf
        obtain ⟨i, hi, rfl⟩ := by
          simpa only [fieldsOf, List.mem_map, List.mem_range] using hf
        exact ⟨i, rfl, by simpa using hi⟩
      | obj fs =>
        show (∀ f ∈ fieldsOf (Container.obj fs), ∃ k, f = Field.key k) ∧
          ((([] : List (String × JSVal)).map Prod.fst)
            ++ (fieldsOf (Container.obj fs)).filterMap keyName).Nodup
        constructor
        · intro f hf
          obtain ⟨p, hp, rfl⟩ := List.mem_map.mp hf
          exact ⟨p.1, rfl⟩
        · rw [List.map_nil, List.nil_append,
            show fieldsOf (Container.obj fs) = fs.map (fun p => Field.key p.1)
              from rfl, keys_filterMap_keyName]
          exact hcok
    have hRefs1 : RefsOK h0 (h.alloc (blankCopy c)).1 ((a, h.next) :: refs) := by
      intro q hq
      rcases List.mem_cons.mp hq with rfl | hq
      · exact ⟨halt, has, hext.1, by rw [hn1]; omega, by rw [hds]; simp⟩
      · obtain ⟨h1', h2', h3', h4', h5'⟩ := hRefs q hq
        refine ⟨h1', h2', h3', by rw [hn1]; omega, ?_⟩
        rw [Heap.lookup_alloc_other (by omega)]
        exact h5'
    have hkn1 : (((a, h.next) :: refs).map Prod.fst).Nodup :=
      List.nodup_cons.mpr ⟨by simpa using hak, hkn⟩
    have hvn1 : (((a, h.next) :: refs).map Prod.snd).Nodup := by
      refine List.nodup_cons.mpr ⟨?_, hvn⟩
      intro hmem
      obtain ⟨q, hq, hq2⟩ := List.mem_map.mp hmem
      have := (hRefs q hq).2.2.2.1
      omega
    obtain ⟨h', new, hrun, hnext', hwf', hext', hframe', hRefs', hkn', hvn',
      hnewge, hfld, hofld, hshape, hnewSim, hpres⟩ :=
      hflds h0 hwf0 hcl0 (fieldsOf c) (h.alloc (blankCopy c)).1
        ((a, h.next) :: refs) a h.next c h1wf hext1 hRefs1 hkn1 hvn1 halt hla0
        (List.mem_cons_self _ _) hfits
        (by simp only [List.length_cons]; omega)
    have hnext'' : h.next + 1 ≤ h'.next := hnext'
    have hcopy : (h'.lookup h.next).isSome := DstShape_some_right hshape
    refine ⟨h', new, ?_, by omega, hwf', hext', ?_, hRefs', hkn', hvn', ?_,
      ?_, ?_⟩
    · rw [dupCtr_succ, hlah']
      simp only []
      rw [show (h.alloc (blankCopy c)).2 = h.next from rfl, hrun]
    · intro b hb
      rw [hframe' b (show b < h.next + 1 by omega) (by omega),
        Heap.lookup_alloc_other (by omega)]
    · intro q hq
      have := hnewge q hq
      have h2 : h.next + 1 ≤ q.2 := this
      omega
    · intro q hq
      rcases hq with hq | rfl
      · exact hnewSim q hq
      · -- the pair (a, h.next) itself is complete
        cases hcl : h'.lookup h.next with
        | none => rw [hcl] at hcopy; simp at hcopy
        | some c' =>
          have hsh := hshape
          unfold DstShape at hsh
          rw [hds, hcl] at hsh
          have hflds' : ∀ f ∈ fieldsOf c,
              FieldRel (new ++ (a, h.next) :: refs) (readC c f) (readC c' f) := by
            intro f hf
            have hx := hfld f hf
            simp only [readF, hcl] at hx
            exact hx
          cases c with
          | arr es =>
            simp only [blankCopy] at hsh
            cases c' with
            | arr es' =>
              simp only [] at hsh
              refine SimPairOK_intro hla0 hcl ?_ hflds'
              show es.length = es'.length
              rw [hsh]
              simp
            | obj gs' => simp only [] at hsh
          | obj fs =>
            simp only [blankCopy] at hsh
            cases c' with
            | arr es' => simp only [] at hsh
            | obj gs' =>
              simp only [] at hsh
              refine SimPairOK_intro hla0 hcl ?_ hflds'
              show fs.map Prod.fst = gs'.map Prod.fst
              rw [hsh, List.map_nil, List.nil_append,
                show fieldsOf (Container.obj fs)
                  = fs.map (fun p => Field.key p.1) from rfl,
                keys_filterMap_keyName]
    · intro q hq hsim
      have hq2lt : q.2 < h.next := (hRefs q hq).2.2.2.1
      have hsim1 : SimPairOK h0 (h.alloc (blankCopy c)).1 ((a, h.next) :: refs)
          q.1 q.2 :=
        SimPairOK_mono (fun r hr => List.mem_cons_of_mem _ hr)
          (Heap.lookup_alloc_other (by omega)) hsim
      exact hpres q (List.mem_cons_of_mem _ hq) (by omega) hsim1

/-- The duplicator correctness statement holds at every fuel: this is the
termination argument (every nested call registers a previously
unregistered original container, so the container count bounds the
recursion depth) together with full functional correctness. -/
theorem dup_ctr_all : ∀ fuel, DupCtrStmt fuel := by
  intro fuel
  induction fuel with
  | zero =>
    intro h0 hwf0 hcl0 h refs a hwf hext hRefs hkn hvn halt has hak hfuel
    exfalso
    have hsub : (a :: refs.map Prod.fst) ⊆ h0.mem.map Prod.fst := by
      intro x hx
      rcases List.mem_cons.mp hx with rfl | hx'
      · exact lookup_isSome_mem_keys has
      · obtain ⟨q, hq, rfl⟩ := List.mem_map.mp hx'
        exact lookup_isSome_mem_keys (hRefs q hq).2.1
    have hnd : (a :: refs.map Prod.fst).Nodup := List.nodup_cons.mpr ⟨hak, hkn⟩
    have hlen := nodup_subset_length hnd hsub
    simp only [List.length_cons, List.length_map] at hlen
    omega
  | succ n ihn => exact dup_ctr_step (dup_flds_of_ctr ihn)

/-! ## Claim theorems -/

/-- C1: `duplicate` on a scalar or `null` returns it unchanged (first
conjunct); on a container — including self-referential and internally
shared ones, since no acyclicity is assumed — it returns a fresh copy
`a'` together with an address pairing `R` (the `references` map) under
which the copy is deep-equal to the original under cycle-aware
comparison (`Sim`: same shape and pointwise `FieldRel`-related fields,
coinductively through `R`), shares no container instance with the
original (`h.next ≤ q.2`: every copy container is freshly allocated),
and preserves reference-sharing: `R` pairs each visited original with
exactly one copy (`(R.map Prod.fst).Nodup`), so two fields of the
original holding the same container are copied to two fields holding
the same new container.  The original heap region is untouched. -/
theorem duplicate_deep_copy :
    (∀ (h : Heap) (v : JSVal), (∀ b, v ≠ JSVal.ref b) →
      duplicate h v = some (v, h)) ∧
    (∀ (h : Heap) (a : Nat), h.WF → h.Closed → (h.lookup a).isSome →
      ∃ (a' : Nat) (h' : Heap) (R : List (Nat × Nat)),
        duplicate h (.ref a) = some (.ref a', h') ∧
        (a, a') ∈ R ∧ Sim h h' R ∧
        (R.map Prod.fst).Nodup ∧ (R.map Prod.snd).Nodup ∧
        (∀ q ∈ R, (h.lookup q.1).isSome ∧ h.next ≤ q.2 ∧
          (h'.lookup q.2).isSome) ∧
        (∀ b, b < h.next → h'.lookup b = h.lookup b)) := by
  constructor
  · intro h v hv
    cases v with
    | ref b => exact absurd rfl (hv b)
    | undef => rfl
    | null => rfl
    | bool _ => rfl
    | num _ => rfl
    | str _ => rfl
  · intro h a hwf hcl has
    have halt : a < h.next := Heap.lookup_lt_next hwf has
    obtain ⟨h', new, hrun, hnext, hwf', hext', hframe, hRO, hkn, hvn, hge,
      hSim, -⟩ :=
      dup_ctr_all (h.mem.length + 1) h hwf hcl h [] a hwf (HExt_refl h)
        (fun q hq => absurd hq (List.not_mem_nil q)) (by simp) (by simp)
        halt has (by simp) (by simp)
    refine ⟨h.next, h', new ++ [(a, h.next)], ?_, ?_, ?_, hkn, hvn, ?_, hframe⟩
    · show (match dupCtr (h.mem.length + 1) h [] a with
        | none => none
        | some vhr => some (vhr.1, vhr.2.1)) = some (.ref h.next, h')
      rw [hrun]
    · exact List.mem_append.mpr (Or.inr (List.mem_cons_self _ _))
    · intro q hq
      rcases List.mem_append.mp hq with hq' | hq'
      · exact hSim q (Or.inl hq')
      · exact hSim q (Or.inr (List.mem_singleton.mp hq'))
    · intro q hq
      obtain ⟨-, h2', h3', -, h5'⟩ := hRO q hq
      exact ⟨h2', h3', h5'⟩

/-- Witness for C1: a scalar instance, and the heap `{a: S, b: S}` where
both fields share the array `S = [2]` — exhibiting deep equality,
freshness and sharing preservation on a concrete input. -/
theorem duplicate_deep_copy_witness :
    duplicate ⟨0, []⟩ (JSVal.str "s") = some (JSVal.str "s", ⟨0, []⟩) ∧
    ∃ (a' : Nat) (h' : Heap) (R : List (Nat × Nat)),
      duplicate ⟨2, [(0, .obj [("a", .ref 1), ("b", .ref 1)]),
          (1, .arr [.num 2])]⟩ (.ref 0) = some (.ref a', h') ∧
      (0, a') ∈ R ∧
      Sim ⟨2, [(0, .obj [("a", .ref 1), ("b", .ref 1)]),
        (1, .arr [.num 2])]⟩ h' R ∧
      (R.map Prod.fst).Nodup ∧ (R.map Prod.snd).Nodup ∧
      (∀ q ∈ R,
        ((⟨2, [(0, .obj [("a", .ref 1), ("b", .ref 1)]),
          (1, .arr [.num 2])]⟩ : Heap).lookup q.1).isSome ∧
        2 ≤ q.2 ∧ (h'.lookup q.2).isSome) ∧
      (∀ b, b < 2 →
        h'.lookup b = (⟨2, [(0, .obj [("a", .ref 1), ("b", .ref 1)]),
          (1, .arr [.num 2])]⟩ : Heap).lookup b) :=
  ⟨duplicate_deep_copy.1 ⟨0, []⟩ (JSVal.str "s")
     (fun b h => JSVal.noConfusion h),
   duplicate_deep_copy.2
     ⟨2, [(0, .obj [("a", .ref 1), ("b", .ref 1)]), (1, .arr [.num 2])]⟩ 0
     (by decide) (by decide) (by decide)⟩

/-- C2: on every well-formed closed heap — cycles allowed — `duplicate`
of a container terminates with a result (first conjunct), and through
the returned pairing every reference field is copied faithfully: if a
field of a visited container `(b, b') ∈ R` references a visited
container `(cA, c') ∈ R` (for a cyclic field, `cA` is an ancestor of
`b`, possibly `b` itself), then the corresponding field of the copy
`b'` references exactly `c'` — the unique new copy of that same
container, which is freshly allocated (`h.next ≤ c'`), hence neither
the original nor a second copy.  The second conjunct runs the direct
self-cycle `c = {x: c}`: the copy's field points back to the copy
itself. -/
theorem duplicate_cycle_safe :
    (∀ (h : Heap) (a : Nat), h.WF → h.Closed → (h.lookup a).isSome →
      ∃ (a' : Nat) (h' : Heap) (R : List (Nat × Nat)),
        duplicate h (.ref a) = some (.ref a', h') ∧ (a, a') ∈ R ∧
        ∀ (b b' cA c' : Nat) (f : Field), (b, b') ∈ R → (cA, c') ∈ R →
          readF h b f = JSVal.ref cA →
          readF h' b' f = JSVal.ref c' ∧ h.next ≤ c') ∧
    duplicate ⟨1, [(0, .obj [("x", .ref 0)])]⟩ (.ref 0)
      = some (.ref 1, ⟨2, [(1, .obj [("x", .ref 1)]),
          (0, .obj [("x", .ref 0)])]⟩) := by
  refine ⟨?_, rfl⟩
  intro h a hwf hcl has
  have halt : a < h.next := Heap.lookup_lt_next hwf has
  obtain ⟨h', new, hrun, hnext, hwf', hext', hframe, hRO, hkn, hvn, hge,
    hSim, -⟩ :=
    dup_ctr_all (h.mem.length + 1) h hwf hcl h [] a hwf (HExt_refl h)
      (fun q hq => absurd hq (List.not_mem_nil q)) (by simp) (by simp)
      halt has (by simp) (by simp)
  refine ⟨h.next, h', new ++ [(a, h.next)], ?_, ?_, ?_⟩
  · show (match dupCtr (h.mem.length + 1) h [] a with
      | none => none
      | some vhr => some (vhr.1, vhr.2.1)) = some (.ref h.next, h')
    rw [hrun]
  · exact List.mem_append.mpr (Or.inr (List.mem_cons_self _ _))
  · intro b b' cA c' f hb hc hread
    have hpair : SimPairOK h h' (new ++ (a, h.next) :: []) b b' := by
      rcases List.mem_append.mp hb with hb' | hb'
      · exact hSim (b, b') (Or.inl hb')
      · exact hSim (b, b') (Or.inr (List.mem_singleton.mp hb'))
    cases hlb : h.lookup b with
    | none => rw [readF, hlb] at hread; exact absurd hread (by simp)
    | some c =>
      cases hlb' : h'.lookup b' with
      | none =>
        unfold SimPairOK at hpair
        rw [hlb, hlb'] at hpair
        exact hpair.elim
      | some cc =>
        unfold SimPairOK at hpair
        rw [hlb, hlb'] at hpair
        have hrc : readC c f = JSVal.ref cA := by
          rw [readF, hlb] at hread; exact hread
        have hf : f ∈ fieldsOf c := readC_ref_mem_fields hrc
        have hfr := hpair.2 f hf
        rw [hrc] at hfr
        obtain ⟨q, hq, hq1, hq2⟩ := hfr
        have : q = (cA, c') := nodup_fst_unique hkn hq hc hq1
        subst this
        refine ⟨?_, (hRO (cA, c') hc).2.2.1⟩
        rw [readF, hlb']
        simp only []
        exact hq2

/-- Witness for C2: the cycle-aware conjunct instantiated at the direct
self-cycle `{x: ·}` heap. -/
theorem duplicate_cycle_safe_witness :
    ∃ (a' : Nat) (h' : Heap) (R : List (Nat × Nat)),
      duplicate ⟨1, [(0, .obj [("x", .ref 0)])]⟩ (.ref 0)
        = some (.ref a', h') ∧ (0, a') ∈ R ∧
      ∀ (b b' cA c' : Nat) (f : Field), (b, b') ∈ R → (cA, c') ∈ R →
        readF ⟨1, [(0, .obj [("x", .ref 0)])]⟩ b f = JSVal.ref cA →
        readF h' b' f = JSVal.ref c' ∧ 1 ≤ c' :=
  duplicate_cycle_safe.1 ⟨1, [(0, .obj [("x", .ref 0)])]⟩ 0
    (by decide) (by decide) (by decide)

/-- C3: the identity map (`references`) is created fresh per top-level
`duplicate` call and never escapes it — `duplicate` runs `dupCtr` on the
empty map and discards the final map (first conjunct, an equation on the
code).  During the traversal (second conjunct, for every reachable
intermediate state: heap extension `h` of the original `h0` and
already-registered map `refs`), visiting an unregistered container `a`
first registers the pair `(a, h.next)` — the copy address is the
allocation counter *before* any of `a`'s fields are recursed into, and
every pair the field recursion adds is strictly fresher
(`h.next < q.2`) — and the final map's keys are `Nodup`: every visited
container is entered exactly once. -/
theorem duplicate_identity_map :
    (∀ (h : Heap) (a : Nat),
      duplicate h (.ref a)
        = match dupCtr (h.mem.length + 1) h [] a with
          | none => none
          | some vhr => some (vhr.1, vhr.2.1)) ∧
    (∀ (h0 : Heap), h0.WF → h0.Closed →
      ∀ (h : Heap) (refs : Refs) (a : Nat) (fuel : Nat), h.WF → HExt h0 h →
        RefsOK h0 h refs → (refs.map Prod.fst).Nodup →
        (refs.map Prod.snd).Nodup →
        a < h0.next → (h0.lookup a).isSome → a ∉ refs.map Prod.fst →
        h0.mem.length + 1 ≤ fuel + refs.length →
        ∃ (h' : Heap) (new : Refs),
          dupCtr fuel h refs a
            = some (.ref h.next, h', new ++ (a, h.next) :: refs) ∧
          ((new ++ (a, h.next) :: refs).map Prod.fst).Nodup ∧
          ∀ q ∈ new, h.next < q.2) := by
  constructor
  · intro h a
    rfl
  · intro h0 hwf0 hcl0 h refs a fuel hwf hext hRefs hkn hvn halt has hak hfuel
    obtain ⟨h', new, hrun, -, -, -, -, -, hkn', -, hge, -, -⟩ :=
      dup_ctr_all fuel h0 hwf0 hcl0 h refs a hwf hext hRefs hkn hvn
        halt has hak hfuel
    exact ⟨h', new, hrun, hkn', hge⟩

/-- Witness for C3: the pre-registration conjunct instantiated at the
self-cycle `{x: ·}` heap with the empty starting map. -/
theorem duplicate_identity_map_witness :
    ∃ (h' : Heap) (new : Refs),
      dupCtr 2 ⟨1, [(0, .obj [("x", .ref 0)])]⟩ [] 0
        = some (.ref 1, h', new ++ (0, 1) :: []) ∧
      ((new ++ (0, 1) :: []).map Prod.fst).Nodup ∧
      ∀ q ∈ new, 1 < q.2 :=
  duplicate_identity_map.2 ⟨1, [(0, .obj [("x", .ref 0)])]⟩ (by decide)
    (by decide) ⟨1, [(0, .obj [("x", .ref 0)])]⟩ [] 0 2 (by decide)
    (HExt_refl _) (fun q hq => absurd hq (List.not_mem_nil q)) (by simp)
    (by simp) (by decide) (by decide) (by simp) (by decide)

/-- C4: for every acyclic value (acyclicity witnessed by a rank function):
scalar or `null` input is returned unchanged (first conjunct); container
input yields a fresh copy `a'` together with a pairing `R` of original
containers and copies under which the copy is deep-equal to the original
(`Sim`: same shape — same sequence length, same own-key list — and
pointwise copied/recursively cloned fields), every copy container is a
fresh address (`h.next ≤ q.2`: no container instance is shared with the
input), and the original heap region is untouched. -/
theorem clone_deep_copy :
    (∀ (h : Heap) (v : JSVal), (∀ b, v ≠ JSVal.ref b) →
      clone h v = some (v, h)) ∧
    (∀ (h : Heap) (a : Nat) (rank : Nat → Nat), h.WF → h.Closed →
      AcyclicRank h rank → (h.lookup a).isSome →
      ∃ (a' : Nat) (h' : Heap) (R : List (Nat × Nat)),
        clone h (.ref a) = some (.ref a', h') ∧
        (a, a') ∈ R ∧ Sim h h' R ∧
        (∀ q ∈ R, (h.lookup q.1).isSome ∧ h.next ≤ q.2 ∧
          (h'.lookup q.2).isSome) ∧
        (∀ b, b < h.next → h'.lookup b = h.lookup b)) := by
  constructor
  · intro h v hv
    cases v with
    | ref b => exact absurd rfl (hv b)
    | undef => rfl
    | null => rfl
    | bool _ => rfl
    | num _ => rfl
    | str _ => rfl
  · intro h a rank hwf hcl hac has
    have halt : a < h.next := Heap.lookup_lt_next hwf has
    have hacb : AcyclicRank h (boundRank h rank) := AcyclicRank_boundRank hcl hac
    have hrank : boundRank h rank a < h.mem.length + 1 :=
      Nat.lt_succ_of_le (boundRank_le h rank a)
    obtain ⟨a', h', R, hrun, -, -, -, -, hframe, hRO, hmem, hSim⟩ :=
      clone_ctr_all (h.mem.length + 1) h (boundRank h rank) hwf hcl hacb h a
        hwf (HExt_refl h) halt has hrank
    refine ⟨a', h', R, hrun, hmem, hSim, ?_, hframe⟩
    intro q hq
    obtain ⟨-, h2, h3, -, h5⟩ := hRO q hq
    exact ⟨h2, h3, h5⟩

/-- Witness for C4: a scalar instance and a small acyclic heap
(`{x: [1], y: 7}`) instance. -/
theorem clone_deep_copy_witness :
    clone ⟨0, []⟩ (JSVal.num 2) = some (JSVal.num 2, ⟨0, []⟩) ∧
    ∃ (a' : Nat) (h' : Heap) (R : List (Nat × Nat)),
      clone ⟨2, [(0, .obj [("x", .ref 1), ("y", .num 7)]), (1, .arr [.num 1])]⟩
          (.ref 0) = some (.ref a', h') ∧
      (0, a') ∈ R ∧
      Sim ⟨2, [(0, .obj [("x", .ref 1), ("y", .num 7)]), (1, .arr [.num 1])]⟩
        h' R ∧
      (∀ q ∈ R,
        ((⟨2, [(0, .obj [("x", .ref 1), ("y", .num 7)]),
          (1, .arr [.num 1])]⟩ : Heap).lookup q.1).isSome ∧
        2 ≤ q.2 ∧ (h'.lookup q.2).isSome) ∧
      (∀ b, b < 2 →
        h'.lookup b = (⟨2, [(0, .obj [("x", .ref 1), ("y", .num 7)]),
          (1, .arr [.num 1])]⟩ : Heap).lookup b) :=
  ⟨clone_deep_copy.1 ⟨0, []⟩ (JSVal.num 2) (fun b h => JSVal.noConfusion h),
   clone_deep_copy.2
     ⟨2, [(0, .obj [("x", .ref 1), ("y", .num 7)]), (1, .arr [.num 1])]⟩ 0
     (fun b => if b = 0 then 1 else 0) (by decide) (by decide) (by decide)
     (by decide)⟩

/-- C5 counterexample: `setByPath(null, "a", 5)` raises a TypeError
(modelled as `Except.error`) instead of returning `false`: `null` passes
the `typeof obj !== 'object'` guard because `typeof null === 'object'`,
and the subsequent property assignment on `null` throws. -/
theorem setByPath_null_raises :
    setByPath ⟨0, []⟩ JSVal.null "a" (JSVal.num 5) = Except.error () := rfl

/-- C5 (amended): for every non-container datum *other than `null`* — a
number, text, boolean or undefined value, i.e. exactly the values with
`typeof data !== 'object'` — `setByPath` returns `false` on every path,
does not raise, and leaves the heap unchanged.  For `null` data the walk
raises a TypeError at its first iteration instead (second conjunct, over
the non-empty segment lists that `split('.')` produces). -/
theorem setByPath_nonObject_false :
    (∀ (h : Heap) (data : JSVal) (s : String) (v : JSVal),
      isObjectType data = false → setByPath h data s v = .ok (false, h)) ∧
    (∀ (h : Heap) (v : JSVal) (p : String) (ps : List String),
      setWalk h JSVal.null v p ps = .error ()) := by
  constructor
  · intro h data s v hd
    unfold setByPath
    cases splitPath s with
    | nil => rfl
    | cons p ps =>
      unfold setWalk
      rw [if_pos hd]
  · intro h v p ps
    cases ps with
    | nil => simp [setWalk, isObjectType, setProp]
    | cons q qs => simp [setWalk, isObjectType, getProp]

/-- Witness for C5 (amended): a scalar datum yields `ok (false, ·)` with
the heap untouched. -/
theorem setByPath_nonObject_false_witness :
    setByPath ⟨0, []⟩ (JSVal.num 3) "a.b" (JSVal.num 5) = .ok (false, ⟨0, []⟩) ∧
    setWalk ⟨0, []⟩ JSVal.null (JSVal.num 5) "a" ["b"] = .error () :=
  ⟨setByPath_nonObject_false.1 ⟨0, []⟩ (JSVal.num 3) "a.b" (JSVal.num 5) rfl,
   setByPath_nonObject_false.2 ⟨0, []⟩ (JSVal.num 5) "a" ["b"]⟩

/-- C6: `setByPath` walks the dot-separated segments, auto-vivifying a new
empty mapping wherever the next level is `null`/`undefined`, assigns the
value at the last segment and returns `true`; reading the same path back
then yields the assigned value.  The precondition `setPathOK` demands that
every *existing* level on the path be a distinct plain object (an aliased
or non-object level makes the walk fail or overwrite, which is outside the
claim).  In particular `setByPath({}, "a.b", 5)` returns `true` and leaves
the target equal to `{a:{b:5}}` (second conjunct: heap cell `1` is the
vivified `{b: 5}` and cell `0` has become `{a: ‹ref 1›}`). -/
theorem setByPath_vivifies_and_sets :
    (∀ (h : Heap) (a : Nat) (s : String) (v : JSVal) (p : String)
      (ps : List String), h.WF → splitPath s = p :: ps →
      setPathOK h [a] a p ps = true →
      ∃ h', setByPath h (.ref a) s v = .ok (true, h') ∧
        getByPath h' (.ref a) s = .ok v) ∧
    setByPath ⟨1, [(0, .obj [])]⟩ (.ref 0) "a.b" (.num 5)
      = .ok (true, ⟨2, [(1, .obj [("b", .num 5)]), (0, .obj [("a", .ref 1)])]⟩) := by
  refine ⟨?_, rfl⟩
  intro h a s v p ps hwf hsp hok
  obtain ⟨h', hrun, hget, -, -, -⟩ :=
    setWalk_viv_spec hwf (List.mem_cons_self a []) hok
  refine ⟨h', ?_, ?_⟩
  · rw [setByPath, hsp]
    exact hrun
  · rw [getByPath, hsp]
    exact hget

/-- Witness for C6: the `{}`/`"a.b"`/`5` instance of the universal
conjunct. -/
theorem setByPath_vivifies_and_sets_witness :
    ∃ h', setByPath ⟨1, [(0, .obj [])]⟩ (.ref 0) "a.b" (.num 5)
        = .ok (true, h') ∧
      getByPath h' (.ref 0) "a.b" = .ok (.num 5) :=
  setByPath_vivifies_and_sets.1 ⟨1, [(0, .obj [])]⟩ 0 "a.b" (.num 5) "a" ["b"]
    (by decide) rfl (by decide)

/-- C7: `getByPath` walks the dot-separated segments and short-circuits —
if the walk of a segment prefix already yields `undefined` or `null`, the
walk of any extension returns that same value immediately, without error;
and the two spec examples: `getByPath({a:{b:{c:5}}}, "a.b.c") = 5` and
`getByPath({a:{}}, "a.b.c") = undefined`. -/
theorem getByPath_short_circuit :
    (∀ (segs : List String), segs ≠ [] → ∀ (rest : List String) (h : Heap)
      (v w : JSVal), getWalk h v segs = .ok w →
      (w = JSVal.undef ∨ w = JSVal.null) → getWalk h v (segs ++ rest) = .ok w) ∧
    getByPath ⟨3, [(0, .obj [("a", .ref 1)]), (1, .obj [("b", .ref 2)]),
        (2, .obj [("c", .num 5)])]⟩ (.ref 0) "a.b.c" = .ok (.num 5) ∧
    getByPath ⟨2, [(0, .obj [("a", .ref 1)]), (1, .obj [])]⟩ (.ref 0) "a.b.c"
      = .ok .undef := by
  refine ⟨?_, rfl, rfl⟩
  intro segs
  induction segs with
  | nil => intro hne; exact absurd rfl hne
  | cons p t ih =>
    intro _ rest h v w hw hnull
    rw [List.cons_append]
    rw [getWalk] at hw ⊢
    cases hgp : getProp h v p with
    | error e => rw [hgp] at hw; simp at hw
    | ok next =>
      rw [hgp] at hw
      simp only [okBind] at hw ⊢
      by_cases hn : next = JSVal.undef ∨ next = JSVal.null
      · rw [if_pos hn] at hw
        rw [if_pos hn]
        exact hw
      · rw [if_neg hn] at hw
        rw [if_neg hn]
        cases t with
        | nil =>
          rw [getWalk] at hw
          injection hw with hw
          exact absurd (hw ▸ hnull) hn
        | cons q qs => exact ih (by simp) rest h next w hw hnull

/-- Witness for C7's short-circuit conjunct: walking `["a"]` on
`{a: null}` yields `null`, and so does walking `["a", "b"]`. -/
theorem getByPath_short_circuit_witness :
    getWalk ⟨1, [(0, .obj [("a", JSVal.null)])]⟩ (.ref 0) (["a"] ++ ["b"])
      = .ok JSVal.null :=
  getByPath_short_circuit.1 ["a"] (by simp) ["b"]
    ⟨1, [(0, .obj [("a", JSVal.null)])]⟩ (.ref 0) JSVal.null rfl (Or.inr rfl)

/-- C8: `deleteByPath` walks the segments; before the last segment a
missing next level yields `false` with the heap untouched; at the last
segment (here: on an object) the key is removed and `true` returned
exactly when the container owns it, and otherwise `false` is returned
with the heap untouched; and the spec example: deleting `"a.b"` in
`{a:{b:5}}` returns `true` leaving `{a:{}}`, and doing it again returns
`false`. -/
theorem deleteByPath_spec :
    (∀ (h : Heap) (obj : JSVal) (p q : String) (qs : List String) (w : JSVal),
      getProp h obj p = .ok w → (w = JSVal.undef ∨ w = JSVal.null) →
      delWalk h obj p (q :: qs) = .ok (false, h)) ∧
    (∀ (h : Heap) (a : Nat) (fs : List (String × JSVal)) (k : String),
      h.lookup a = some (.obj fs) →
      delWalk h (.ref a) k [] =
        .ok ((assocLookup fs k).isSome,
          if (assocLookup fs k).isSome then h.update a (.obj (eraseAssoc fs k))
          else h)) ∧
    deleteByPath ⟨2, [(0, .obj [("a", .ref 1)]), (1, .obj [("b", .num 5)])]⟩
      (.ref 0) "a.b"
      = .ok (true, ⟨2, [(0, .obj [("a", .ref 1)]), (1, .obj [])]⟩) ∧
    deleteByPath ⟨2, [(0, .obj [("a", .ref 1)]), (1, .obj [])]⟩ (.ref 0) "a.b"
      = .ok (false, ⟨2, [(0, .obj [("a", .ref 1)]), (1, .obj [])]⟩) := by
  refine ⟨?_, ?_, rfl, rfl⟩
  · intro h obj p q qs w hgp hnull
    rw [delWalk, hgp]
    simp only [okBind]
    rw [if_pos hnull]
  · intro h a fs k hl
    cases hsk : (assocLookup fs k).isSome with
    | true =>
      simp [delWalk, getProp, hl, hasOwn, hsk, doDelete, delField]
    | false =>
      simp [delWalk, getProp, hl, hasOwn, hsk]

/-- Witness for C8's universal conjuncts at concrete inputs. -/
theorem deleteByPath_spec_witness :
    delWalk ⟨1, [(0, .obj [("a", JSVal.null)])]⟩ (.ref 0) "a" ["b"]
      = .ok (false, ⟨1, [(0, .obj [("a", JSVal.null)])]⟩) ∧
    delWalk ⟨1, [(0, .obj [("x", .num 1)])]⟩ (.ref 0) "x" []
      = .ok ((assocLookup [("x", JSVal.num 1)] "x").isSome,
        if (assocLookup [("x", JSVal.num 1)] "x").isSome then
          Heap.update ⟨1, [(0, .obj [("x", .num 1)])]⟩ 0
            (.obj (eraseAssoc [("x", JSVal.num 1)] "x"))
        else ⟨1, [(0, .obj [("x", .num 1)])]⟩) :=
  ⟨deleteByPath_spec.1 ⟨1, [(0, .obj [("a", JSVal.null)])]⟩ (.ref 0) "a" "b" []
      JSVal.null rfl (Or.inr rfl),
   deleteByPath_spec.2.1 ⟨1, [(0, .obj [("x", .num 1)])]⟩ 0
      [("x", JSVal.num 1)] "x" rfl⟩

/-- C9: `merge` returns the one-level-flattened duplicate-free set union
of its input sequences: an element is in the result iff it is in some
input sequence, the result has no duplicates, and
`merge([1,2],[2,3]) = [1,2,3]`. -/
theorem merge_is_set_union :
    (∀ (args : List (List JSVal)) (x : JSVal),
      x ∈ merge args ↔ ∃ l ∈ args, x ∈ l) ∧
    (∀ args : List (List JSVal), (merge args).Nodup) ∧
    merge [[JSVal.num 1, JSVal.num 2], [JSVal.num 2, JSVal.num 3]] =
      [JSVal.num 1, JSVal.num 2, JSVal.num 3] := by
  refine ⟨fun args x => ?_, fun args => ?_, rfl⟩
  · simpa [merge] using @mem_merge_aux args [] x
  · exact nodup_merge_aux List.nodup_nil

/-- Witness for C9 at a concrete input. -/
theorem merge_is_set_union_witness :
    JSVal.num 3 ∈ merge [[JSVal.num 1, JSVal.num 2], [JSVal.num 2, JSVal.num 3]] :=
  (merge_is_set_union.1 _ _).mpr ⟨[JSVal.num 2, JSVal.num 3], by simp, by simp⟩

/-- C10: `setByPath` is failure-atomic — whenever it returns `false` the
heap is exactly the input heap: no auto-vivified intermediate object and
no assignment happened (on a well-formed heap; once the walk vivifies, it
can only ever continue through fresh empty objects and must end in a
successful assignment, so a `false` return means the walk failed before
its first mutation). -/
theorem setByPath_failure_atomic :
    ∀ (h : Heap) (data : JSVal) (s : String) (v : JSVal) (h' : Heap),
      h.WF → setByPath h data s v = .ok (false, h') → h' = h := by
  intro h data s v h' hwf hrun
  unfold setByPath at hrun
  cases hsp : splitPath s with
  | nil =>
    rw [hsp] at hrun
    injection hrun with hrun
    exact (congrArg Prod.snd hrun).symm
  | cons p ps =>
    rw [hsp] at hrun
    exact setWalk_false_unchanged hwf hrun

/-- Witness for C10: a failing `setByPath` on `{a: 1}` with path `"a.b"`
(the walk reaches the scalar `1`) leaves the heap unchanged. -/
theorem setByPath_failure_atomic_witness :
    Heap.WF ⟨1, [(0, .obj [("a", JSVal.num 1)])]⟩ ∧
    setByPath ⟨1, [(0, .obj [("a", JSVal.num 1)])]⟩ (.ref 0) "a.b" (.num 5)
      = .ok (false, ⟨1, [(0, .obj [("a", JSVal.num 1)])]⟩) ∧
    (⟨1, [(0, .obj [("a", JSVal.num 1)])]⟩ : Heap)
      = ⟨1, [(0, .obj [("a", JSVal.num 1)])]⟩ :=
  ⟨by decide, rfl,
   setByPath_failure_atomic ⟨1, [(0, .obj [("a", JSVal.num 1)])]⟩ (.ref 0)
     "a.b" (.num 5) ⟨1, [(0, .obj [("a", JSVal.num 1)])]⟩ (by decide) rfl⟩

end Data
